import Mathlib

/-!
# A verification development for the `mkinit` package-index generator

This file gives a shallow embedding of the core of the generator
(`src/codegen.rs` together with the parsing shim in `src/parser.rs`) and
proves properties of it.

Modelling conventions:

* Rust `String` values are Lean `String`s.  Rust compares strings by their
  UTF-8 bytes; UTF-8 byte order coincides with code-point order, so the
  comparison `lexLe` below (lexicographic on `String.data` by code point)
  is a faithful model of Rust's `Ord for String`.
* `Vec::sort` is a stable sort.  The orders used by the code are total
  orders under which elements comparing equal are actually equal, so any
  correct sort produces the same list; we use `List.insertionSort`.
* The iteration order of `HashMap::keys()` is not determined by the map's
  contents.  It is modelled by an explicit parameter `ksel` that is applied
  to the keys in insertion order; a run of the program corresponds to some
  `ksel` whose result is a permutation of its argument.
* Filesystem trees are the inductive `FSNode`/`FSChildren` below; a
  directory's child list may contain `consErr` entries, modelling `walkdir`
  entries whose enumeration failed (which `make_init` receives as `Err` and
  drops via `.filter_map(|e| e.ok())`).
* The out-of-bounds index `assign.targets[0]` in the `__all__` scan
  (a Rust panic) is modelled by an `Option`: `none` is the panic.
* `fs::write` is modelled by returning the list of write events (path,
  statement list, rendered contents) instead of performing them.
-/

/-! ## String ordering (Rust `Ord for String`, byte/code-point order) -/

/-- Strict comparison of characters by code point. -/
def charLt (a b : Char) : Bool := a.toNat < b.toNat

/-- Lexicographic `≤` on character lists by code point.  This is Rust's
`Ord for String` read off the code points (UTF-8 byte order and code-point
order agree). -/
def lexLe : List Char → List Char → Bool
  | [], _ => true
  | _ :: _, [] => false
  | a :: as, b :: bs => if a = b then lexLe as bs else charLt a b

/-- `≤` on strings, by their character data. -/
def strLe (a b : String) : Bool := lexLe a.data b.data

/-- `≤` on `(module, attribute)` pairs: Rust's derived tuple order
(first component, then second). -/
def pairLe (p q : String × String) : Bool :=
  if p.1 = q.1 then strLe p.2 q.2 else strLe p.1 q.1

/-- Model of `Vec::<&String>::sort`. -/
def sortStrings (l : List String) : List String :=
  List.insertionSort (fun a b => strLe a b = true) l

/-- Model of `Vec::<(&String, &String)>::sort`. -/
def sortPairs (l : List (String × String)) : List (String × String) :=
  List.insertionSort (fun p q => pairLe p q = true) l

/-- `name.starts_with("_")`. -/
def startsWithUnderscore (s : String) : Bool :=
  match s.data with
  | [] => false
  | c :: _ => c = '_'

/-- `file_name.strip_suffix(".py").unwrap_or(file_name)`. -/
def stemOf (s : String) : String :=
  match s.data.reverse with
  | 'y' :: 'p' :: '.' :: rest => String.mk rest.reverse
  | _ => s

/-! ## The Python AST fragment inspected by the Exposer

Only the shapes `get_exposed_names` looks at are distinguished; every other
expression or statement shape is collapsed into `other` (the code treats
all of them alike, contributing nothing). -/

/-- `ruff_python_ast::Expr`, restricted to the inspected variants:
`name` is `Expr::Name` (with its `id`), `tuple` is `Expr::Tuple`,
`listE` is `Expr::List`, `strLit` is a string-literal expression. -/
inductive Expr where
  | name (id : String)
  | tuple (elts : List Expr)
  | listE (elts : List Expr)
  | strLit (value : String)
  | other

/-- `ruff_python_ast::Stmt`, restricted to the inspected variants. -/
inductive Stmt where
  | functionDef (name : String)
  | classDef (name : String)
  | assign (targets : List Expr) (value : Expr)
  | other

/-- `Expr::as_string_literal_expr`, as used in the `filter_map` over the
`__all__` list elements. -/
def asStringLiteral : Expr → Option String
  | .strLit v => some v
  | _ => none

/-- Whether an expression is a list literal. -/
def isListE : Expr → Bool
  | .listE _ => true
  | _ => false

/-! ## The Exposer: `get_exposed_names` (codegen.rs lines 122-223) -/

/-- The `__all__`-detection scan (codegen.rs lines 130-155).  The result is
* `none` — the scan evaluated `assign.targets[0]` on an empty target list,
  which in the Rust code is an out-of-bounds panic;
* `some none` — no declaration was accepted (`all` stays `None`, including
  the `_ => break` case of a non-list right-hand side);
* `some (some l)` — the first assignment whose first target is the name
  `__all__` had a list-literal right-hand side, and `l` collects its
  string-literal elements in order. -/
def scan_all : List Stmt → Option (Option (List String))
  | [] => some none
  | .assign targets value :: rest =>
    (match targets with
     | [] => none
     | t :: _ =>
       match t with
       | .name id =>
         if id = "__all__" then
           match value with
           | .listE elts => some (some (elts.filterMap asStringLiteral))
           | _ => some none
         else scan_all rest
       | _ => scan_all rest)
  | _ :: rest => scan_all rest

/-- The `push_name` closure (codegen.rs lines 169-180): with no `__all__`
set, keep a name iff it does not start with `_`; with a set, keep it iff it
is a member.  The `HashSet` is modelled by a list queried with
`List.contains`. -/
def push_name (all : Option (List String)) (name : String) (result : List String) :
    List String :=
  match all with
  | none => if startsWithUnderscore name then result else result ++ [name]
  | some l => if l.contains name then result ++ [name] else result

/-- The inner loop over tuple elements of an assignment's first target
(codegen.rs lines 205-213). -/
def pushTupleNames (all : Option (List String)) : List Expr → List String → List String
  | [], result => result
  | e :: es, result =>
    match e with
    | .name n => pushTupleNames all es (push_name all n result)
    | _ => pushTupleNames all es result

/-- The candidate-collection loop (codegen.rs lines 183-220), accumulating
into `result`. -/
def collect_names (all : Option (List String)) : List Stmt → List String → List String
  | [], result => result
  | stmt :: rest, result =>
    match stmt with
    | .functionDef n => collect_names all rest (push_name all n result)
    | .classDef n => collect_names all rest (push_name all n result)
    | .assign targets _ =>
      (match targets with
       | [] => collect_names all rest result
       | t :: _ =>
         match t with
         | .name n => collect_names all rest (push_name all n result)
         | .tuple elts => collect_names all rest (pushTupleNames all elts result)
         | _ => collect_names all rest result)
    | .other => collect_names all rest result

/-- `get_exposed_names(parsed, respect_all)` (codegen.rs lines 122-223).
The argument is the result of `parsed.syntax().as_module()`: `none` when
the parse tree is not a module (the function then returns the empty list).
The outer `Option` is the panic of the detection scan. -/
def get_exposed_names (parsed : Option (List Stmt)) (respect_all : Bool) :
    Option (List String) :=
  match parsed with
  | none => some []
  | some body =>
    match (if respect_all then scan_all body else some none) with
    | none => none
    | some all => some (collect_names all body [])

/-- All candidate names of a module body, in source order and unfiltered:
function names, class names, first-target bare names, and bare names inside
a first-target tuple pattern.  (Specification-side companion of
`collect_names`, used to state what the filtering keeps.) -/
def tuple_names : List Expr → List String
  | [] => []
  | .name n :: es => n :: tuple_names es
  | _ :: es => tuple_names es

/-- Candidate names of a statement list (see `tuple_names`). -/
def candidate_names : List Stmt → List String
  | [] => []
  | .functionDef n :: rest => n :: candidate_names rest
  | .classDef n :: rest => n :: candidate_names rest
  | .assign [] _ :: rest => candidate_names rest
  | .assign (.name n :: _) _ :: rest => n :: candidate_names rest
  | .assign (.tuple elts :: _) _ :: rest => tuple_names elts ++ candidate_names rest
  | .assign (_ :: _) _ :: rest => candidate_names rest
  | .other :: rest => candidate_names rest

/-! ## The internal statement type (codegen.rs lines 9-14) -/

/-- `enum Imports`: `Import(module)`, `FromImport(module, attr)`,
`Attribute(attr)`. -/
inductive Imports where
  | Import (module : String)
  | FromImport (module attr : String)
  | Attribute (attr : String)
deriving DecidableEq

/-! ## The Renderer: `process_init_file` (codegen.rs lines 225-302) -/

/-- The `Import` statements, in order (codegen.rs lines 244-247). -/
def importsOfRaw (statements : List Imports) : List String :=
  statements.filterMap fun s =>
    match s with
    | .Import m => some m
    | _ => none

/-- The `FromImport` statements as pairs, in order (codegen.rs 248-251). -/
def fromImportsOfRaw (statements : List Imports) : List (String × String) :=
  statements.filterMap fun s =>
    match s with
    | .FromImport m a => some (m, a)
    | _ => none

/-- `imports`, after the optional `imports.sort()`. -/
def importsOf (statements : List Imports) (sort_imports : Bool) : List String :=
  if sort_imports then sortStrings (importsOfRaw statements) else importsOfRaw statements

/-- `from_imports`, after the optional `from_imports.sort()`. -/
def fromImportsOf (statements : List Imports) (sort_imports : Bool) :
    List (String × String) :=
  if sort_imports then sortPairs (fromImportsOfRaw statements)
  else fromImportsOfRaw statements

/-- One step of filling `from_imports_map` (codegen.rs lines 259-268):
push onto an existing key's vector, or insert a new key.  The association
list records the map's contents and key-insertion order. -/
def groupInsert : List (String × List String) → String → String →
    List (String × List String)
  | [], m, a => [(m, [a])]
  | (k, v) :: rest, m, a =>
    if k = m then (k, v ++ [a]) :: rest else (k, v) :: groupInsert rest m a

/-- `from_imports_map` after the collection loop. -/
def buildMap (l : List (String × String)) : List (String × List String) :=
  l.foldl (fun acc p => groupInsert acc p.1 p.2) []

/-- The map built by `process_init_file` from a statement list. -/
def fmapOf (statements : List Imports) (sort_imports : Bool) :
    List (String × List String) :=
  buildMap (fromImportsOf statements sort_imports)

/-- The keys of `from_imports_map`, in insertion order. -/
def keysOf (statements : List Imports) (sort_imports : Bool) : List String :=
  (fmapOf statements sort_imports).map Prod.fst

/-- `map_keys` (codegen.rs lines 278-281): `Vec::from_iter(keys)` in the
hash map's unspecified iteration order — modelled by applying `ksel` to the
insertion-ordered keys — then sorted when `sort_imports` is set. -/
def mapKeysOf (statements : List Imports) (sort_imports : Bool)
    (ksel : List String → List String) : List String :=
  if sort_imports then sortStrings (ksel (keysOf statements sort_imports))
  else ksel (keysOf statements sort_imports)

/-- `from_imports_map[module]` (codegen.rs line 284). -/
def lookupGroup (fmap : List (String × List String)) (k : String) : List String :=
  match fmap with
  | [] => []
  | (m, v) :: rest => if m = k then v else lookupGroup rest k

/-- The `from . import MODULE` loop (codegen.rs lines 271-274), threading
the pair (`new_contents`, `all`). -/
def emitImports : List String → String × List String → String × List String
  | [], acc => acc
  | m :: rest, acc =>
    emitImports rest (acc.1 ++ "from . import " ++ m ++ "\n", acc.2 ++ [m])

/-- The attribute lines of one re-export group (codegen.rs lines 284-287). -/
def emitAttrs : List String → String × List String → String × List String
  | [], acc => acc
  | a :: rest, acc =>
    emitAttrs rest (acc.1 ++ "    " ++ a ++ ",\n", acc.2 ++ [a])

/-- The `from .MODULE import ( ... )` loop (codegen.rs lines 282-289). -/
def emitGroups (fmap : List (String × List String)) :
    List String → String × List String → String × List String
  | [], acc => acc
  | k :: rest, acc =>
    emitGroups fmap rest
      (let acc1 := emitAttrs (lookupGroup fmap k)
        (acc.1 ++ "from ." ++ k ++ " import (\n", acc.2)
      (acc1.1 ++ ")\n", acc1.2))

/-- The `__all__` entry loop (codegen.rs lines 293-295). -/
def emitAll : List String → String → String
  | [], c => c
  | n :: rest, c => emitAll rest (c ++ "    \"" ++ n ++ "\",\n")

/-- `process_init_file` (codegen.rs lines 225-302), returning the
`new_contents` string the function writes to `path`.  (`existing_contents`
is read but never used by the code.)  `ksel` models the hash map's key
iteration order; see the header. -/
def process_init_file (statements : List Imports) (sort_imports : Bool)
    (ksel : List String → List String) : String :=
  let acc1 := emitImports (importsOf statements sort_imports) ("", [])
  let acc2 := emitGroups (fmapOf statements sort_imports)
    (mapKeysOf statements sort_imports ksel) (acc1.1 ++ "\n", acc1.2)
  emitAll acc2.2 (acc2.1 ++ "\n__all__ = [\n") ++ "]\n"

/-- Concatenation of a list of text pieces. -/
def joinTexts : List String → String
  | [] => ""
  | s :: rest => s ++ joinTexts rest

/-- The text of the `from . import` section, declaratively. -/
def importLinesText (ms : List String) : String :=
  joinTexts (ms.map fun m => "from . import " ++ m ++ "\n")

/-- The text of one re-export group, declaratively. -/
def groupBlockText (fmap : List (String × List String)) (k : String) : String :=
  "from ." ++ k ++ " import (\n" ++
    joinTexts ((lookupGroup fmap k).map fun a => "    " ++ a ++ ",\n") ++ ")\n"

/-- The names listed in `__all__`: the emitted module names, then every
attribute of every emitted group, in emission order. -/
def allEntriesOf (statements : List Imports) (sort_imports : Bool)
    (ksel : List String → List String) : List String :=
  importsOf statements sort_imports ++
    (mapKeysOf statements sort_imports ksel).flatMap
      (lookupGroup (fmapOf statements sort_imports))

/-- The text of the `__all__` entry lines, declaratively. -/
def allLinesText (ns : List String) : String :=
  joinTexts (ns.map fun n => "    \"" ++ n ++ "\",\n")

/-! ## The filesystem model and the Walker/Generator `make_init`
(codegen.rs lines 18-120) -/

mutual
/-- A filesystem entry, as `make_init` can observe it:
* `pyFile fname parsed` — a file whose `extension()` is `Some("py")`;
  `parsed` is the outcome of `parser::parse_module` on it: `.error e` for a
  read or parse failure (both become `Err(e.to_string())`), `.ok m` for a
  successful parse, where `m` is `parsed.syntax().as_module()` (`none` when
  the parse tree is not a module);
* `otherFile fname` — a file of any other extension;
* `dir fname children` — a directory with its immediate entries. -/
inductive FSNode where
  | pyFile (fname : String) (parsed : Except String (Option (List Stmt)))
  | otherFile (fname : String)
  | dir (fname : String) (children : FSChildren)

/-- The immediate entries of a directory, as yielded by
`WalkDir::new(path).min_depth(1).max_depth(1)`: `consErr` is an entry whose
enumeration failed (an `Err` item of the walk, dropped by
`.filter_map(|e| e.ok())`). -/
inductive FSChildren where
  | nil
  | consOk (child : FSNode) (rest : FSChildren)
  | consErr (msg : String) (rest : FSChildren)
end

/-- The entry's `file_name()`. -/
def fnameOf : FSNode → String
  | .pyFile f _ => f
  | .otherFile f => f
  | .dir f _ => f

/-- `submod.path().is_dir()`. -/
def isDirNode : FSNode → Bool
  | .dir _ _ => true
  | _ => false

/-- Whether the child-enumeration loop skips this entry (codegen.rs lines
40-47): files whose extension is not `py`, and any entry named exactly
`__init__.py`. -/
def skipChild (c : FSNode) : Bool :=
  match c with
  | .otherFile _ => true
  | _ => fnameOf c = "__init__.py"

/-- The flattening of a child's statement onto the parent (codegen.rs lines
71-77): all three variants are carried up as `FromImport(stem, ·)`. -/
def flattenStmt (stem : String) : Imports → Imports
  | .Import m => .FromImport stem m
  | .FromImport _ a => .FromImport stem a
  | .Attribute a => .FromImport stem a

/-- A write event of the generator: the path of the written `__init__.py`
relative to the processed node (the list of directory names descended
into, `[]` for the node's own index), the statement list the Renderer was
given, and the rendered byte content that `fs::write` receives. -/
abbrev WriteEvent := List String × List Imports × String

mutual
/-- `make_init(path, ...)` (codegen.rs lines 18-120), for a path that
exists (the tree holds only existing entries).  The outer `Option` is a
panic of the Exposer (see `scan_all`); `Except` carries the `Err` of the
Rust function; the payload is the returned statement list together with
the write events performed, in order (children's writes first, then the
directory's own `__init__.py`). -/
def make_init (node : FSNode) (respect_all sort_imports : Bool)
    (ksel : List String → List String) :
    Option (Except String (List Imports × List WriteEvent)) :=
  match node with
  | .dir _ children =>
    (match aggregate children respect_all sort_imports ksel with
     | none => none
     | some (.error e) => some (.error e)
     | some (.ok (result, ws)) =>
       if result.isEmpty then some (.ok (result, ws))
       else some (.ok (result,
         ws ++ [([], result, process_init_file result sort_imports ksel)])))
  | .pyFile _ parsed =>
    (match parsed with
     | .error e => some (.error e)
     | .ok m =>
       match get_exposed_names m respect_all with
       | none => none
       | some names => some (.ok (names.map Imports.Attribute, [])))
  | .otherFile fname =>
    some (.error ("Path " ++ fname ++ " is not a directory or Python source file"))
termination_by sizeOf node

/-- The child-enumeration loop of the directory case (codegen.rs lines
32-78).  `consErr` entries are dropped (`.filter_map(|e| e.ok())`); skipped
entries contribute nothing; a directory child whose recursive result is
empty is omitted (codegen.rs lines 62-65) though its write events — none,
see below — are already on disk; every other child contributes
`Import(stem)` followed by its flattened statements.  A child's write
events are prefixed with the child's file name. -/
def aggregate (children : FSChildren) (respect_all sort_imports : Bool)
    (ksel : List String → List String) :
    Option (Except String (List Imports × List WriteEvent)) :=
  match children with
  | .nil => some (.ok ([], []))
  | .consErr _ rest => aggregate rest respect_all sort_imports ksel
  | .consOk c rest =>
    if skipChild c then aggregate rest respect_all sort_imports ksel
    else
      match make_init c respect_all sort_imports ksel with
      | none => none
      | some (.error e) => some (.error e)
      | some (.ok (subInit, ws1)) =>
        (match aggregate rest respect_all sort_imports ksel with
         | none => none
         | some (.error e) => some (.error e)
         | some (.ok (st, ws)) =>
           if isDirNode c && subInit.isEmpty then
             some (.ok (st, ws1.map (fun w => (fnameOf c :: w.1, w.2)) ++ ws))
           else
             some (.ok (
               Imports.Import (stemOf (fnameOf c)) ::
                 (subInit.map (flattenStmt (stemOf (fnameOf c))) ++ st),
               ws1.map (fun w => (fnameOf c :: w.1, w.2)) ++ ws)))
termination_by sizeOf children
end

/-! ## Auxiliary predicates and operations on trees -/

/-- Whether an `Except` result is an error. -/
def isErr : Except String (List Imports × List WriteEvent) → Bool
  | .error _ => true
  | .ok _ => false

mutual
/-- The failures `make_init` notices on a node it is invoked on: a file of
the wrong kind (the `UnsupportedEntry` error of the root case), or a read
or parse failure of a Python source file.  Entries skipped by the
child-enumeration loop — non-`py` files, entries named `__init__.py`, and
`consErr` entries dropped by `.filter_map(|e| e.ok())` — contribute
nothing. -/
def hasFailure (node : FSNode) : Bool :=
  match node with
  | .pyFile _ (.error _) => true
  | .pyFile _ (.ok _) => false
  | .otherFile _ => true
  | .dir _ children => anyChildFailure children
termination_by sizeOf node

/-- `hasFailure` over the non-skipped children of a directory. -/
def anyChildFailure (children : FSChildren) : Bool :=
  match children with
  | .nil => false
  | .consErr _ rest => anyChildFailure rest
  | .consOk c rest =>
    (if skipChild c then false else hasFailure c) || anyChildFailure rest
termination_by sizeOf children
end

mutual
/-- The stems (file names with a final `.py` stripped) of every entry of a
tree, the root included. -/
def stems (node : FSNode) : List String :=
  match node with
  | .pyFile f _ => [stemOf f]
  | .otherFile f => [stemOf f]
  | .dir f children => stemOf f :: stemsChildren children
termination_by sizeOf node

/-- The stems of a child list (error entries have no name). -/
def stemsChildren (children : FSChildren) : List String :=
  match children with
  | .nil => []
  | .consOk c rest => stems c ++ stemsChildren rest
  | .consErr _ rest => stemsChildren rest
termination_by sizeOf children
end

/-- Whether a parse outcome is free of an accepted `__all__` declaration:
a successfully parsed module must have a scan result of `some none` (no
declaration accepted, no panic). -/
def parsedScansNone : Except String (Option (List Stmt)) → Bool
  | .ok (some body) => scan_all body = some none
  | _ => true

mutual
/-- No Python source file anywhere in the tree carries an accepted
`__all__` declaration (see `parsedScansNone`). -/
def noPublicList (node : FSNode) : Bool :=
  match node with
  | .pyFile _ parsed => parsedScansNone parsed
  | .otherFile _ => true
  | .dir _ children => noPublicListChildren children
termination_by sizeOf node

/-- `noPublicList` over a child list. -/
def noPublicListChildren (children : FSChildren) : Bool :=
  match children with
  | .nil => true
  | .consOk c rest => noPublicList c && noPublicListChildren rest
  | .consErr _ rest => noPublicListChildren rest
termination_by sizeOf children
end

/-- Every name mentioned by a statement is either the stem of some entry
of the tree or does not begin with an underscore; module positions are
always stems. -/
def stmtNameOK (st : List String) : Imports → Prop
  | .Import m => m ∈ st
  | .FromImport m a => m ∈ st ∧ (a ∈ st ∨ startsWithUnderscore a = false)
  | .Attribute a => startsWithUnderscore a = false

/-- Append of child lists. -/
def capp : FSChildren → FSChildren → FSChildren
  | .nil, ds => ds
  | .consOk c rest, ds => .consOk c (capp rest ds)
  | .consErr m rest, ds => .consErr m (capp rest ds)

/-- Materializing `fs::write(path.join("__init__.py"), ...)` in a child
list: replace the first entry named `__init__.py` by the written file, or
append it.  `parsed` is whatever the written bytes would parse to; the
generator never reads it back. -/
def setInit (parsed : Except String (Option (List Stmt))) :
    FSChildren → FSChildren
  | .nil => .consOk (.pyFile "__init__.py" parsed) .nil
  | .consOk c rest =>
    if fnameOf c = "__init__.py" then .consOk (.pyFile "__init__.py" parsed) rest
    else .consOk c (setInit parsed rest)
  | .consErr m rest => .consErr m (setInit parsed rest)

mutual
/-- Materializing one write event on a tree: descend along the path of
directory names and place the `__init__.py` file there.  A path that does
not resolve leaves the tree unchanged. -/
def addInit (node : FSNode) (path : List String)
    (parsed : Except String (Option (List Stmt))) : FSNode :=
  match node, path with
  | .dir f children, [] => .dir f (setInit parsed children)
  | .dir f children, d :: ds => .dir f (addInitChildren children d ds parsed)
  | n, _ => n
termination_by sizeOf node

/-- Descend into the first child whose file name matches the next path
component. -/
def addInitChildren (children : FSChildren) (d : String) (ds : List String)
    (parsed : Except String (Option (List Stmt))) : FSChildren :=
  match children with
  | .nil => .nil
  | .consErr m rest => .consErr m (addInitChildren rest d ds parsed)
  | .consOk c rest =>
    if fnameOf c = d then .consOk (addInit c ds parsed) rest
    else .consOk c (addInitChildren rest d ds parsed)
termination_by sizeOf children
end

/-- The tree as left behind by a run that performed the write events `ws`:
each event's `__init__.py` is materialized at its path.  `pf` assigns each
written file its parse outcome (which the generator never consults). -/
def applyWrites (node : FSNode) (ws : List WriteEvent)
    (pf : List String → Except String (Option (List Stmt))) : FSNode :=
  ws.foldl (fun acc w => addInit acc w.1 (pf w.1)) node

/-- Whether the `__all__`-detection scan passes over a statement and keeps
scanning: everything except an assignment with an empty target list (the
panic) and an assignment whose first target is the name `__all__` (where
the scan stops, accepting or breaking). -/
def scanSkips : Stmt → Bool
  | .assign [] _ => false
  | .assign (.name id :: _) _ => if id = "__all__" then false else true
  | .assign (_ :: _) _ => true
  | _ => true

mutual
/-- `make_init` with the outcome of each `fs::write` made explicit:
`wf p` is the result of writing the index file at relative path `p`
(`none` = success, `some e` = the I/O error, already rendered as the
string `e.to_string()` that codegen.rs line 300 returns).  The plain
`make_init` above is this function with every write succeeding. -/
def make_init_werr (node : FSNode) (respect_all sort_imports : Bool)
    (ksel : List String → List String) (wf : List String → Option String) :
    Option (Except String (List Imports × List WriteEvent)) :=
  match node with
  | .dir _ children =>
    (match aggregate_werr children respect_all sort_imports ksel wf with
     | none => none
     | some (.error e) => some (.error e)
     | some (.ok (result, ws)) =>
       if result.isEmpty then some (.ok (result, ws))
       else
         match wf [] with
         | some e => some (.error e)
         | none =>
           some (.ok (result,
             ws ++ [([], result, process_init_file result sort_imports ksel)])))
  | .pyFile _ parsed =>
    (match parsed with
     | .error e => some (.error e)
     | .ok m =>
       match get_exposed_names m respect_all with
       | none => none
       | some names => some (.ok (names.map Imports.Attribute, [])))
  | .otherFile fname =>
    some (.error ("Path " ++ fname ++ " is not a directory or Python source file"))
termination_by sizeOf node

/-- The child-enumeration loop with explicit write outcomes; each child is
consulted through the oracle re-rooted at its entry name, matching the
`path.join` of the recursive call. -/
def aggregate_werr (children : FSChildren) (respect_all sort_imports : Bool)
    (ksel : List String → List String) (wf : List String → Option String) :
    Option (Except String (List Imports × List WriteEvent)) :=
  match children with
  | .nil => some (.ok ([], []))
  | .consErr _ rest => aggregate_werr rest respect_all sort_imports ksel wf
  | .consOk c rest =>
    if skipChild c then aggregate_werr rest respect_all sort_imports ksel wf
    else
      match make_init_werr c respect_all sort_imports ksel
          (fun p => wf (fnameOf c :: p)) with
      | none => none
      | some (.error e) => some (.error e)
      | some (.ok (subInit, ws1)) =>
        (match aggregate_werr rest respect_all sort_imports ksel wf with
         | none => none
         | some (.error e) => some (.error e)
         | some (.ok (st, ws)) =>
           if isDirNode c && subInit.isEmpty then
             some (.ok (st, ws1.map (fun w => (fnameOf c :: w.1, w.2)) ++ ws))
           else
             some (.ok (
               Imports.Import (stemOf (fnameOf c)) ::
                 (subInit.map (flattenStmt (stemOf (fnameOf c))) ++ st),
               ws1.map (fun w => (fnameOf c :: w.1, w.2)) ++ ws)))
termination_by sizeOf children
end

/-! ## Concrete input trees used by the scenario theorems -/

/-- Scenario tree: `pkg/a.py` containing `def foo(): pass` and `X = 1`
(the assignment's right-hand side is a non-inspected expression). -/
def pkgScenario1 : FSNode :=
  .dir "pkg" (.consOk (.pyFile "a.py" (.ok (some
    [Stmt.functionDef "foo", Stmt.assign [Expr.name "X"] Expr.other]))) .nil)

/-- The statement list `make_init` aggregates for `pkgScenario1`. -/
def scenario1Statements : List Imports :=
  [.Import "a", .FromImport "a" "foo", .FromImport "a" "X"]

/-- The bytes of `pkg/__init__.py` for scenario 1 in discovery order. -/
def scenario1TextUnsorted : String :=
  "from . import a\n\nfrom .a import (\n    foo,\n    X,\n)\n\n__all__ = [\n    \"a\",\n    \"foo\",\n    \"X\",\n]\n"

/-- The bytes of `pkg/__init__.py` for scenario 1 with sorting on: `X`
precedes `foo` in byte order. -/
def scenario1TextSorted : String :=
  "from . import a\n\nfrom .a import (\n    X,\n    foo,\n)\n\n__all__ = [\n    \"a\",\n    \"X\",\n    \"foo\",\n]\n"

/-- A tree whose only module is `pkg/_foo.py` containing `def bar(): pass`;
no module declares a public-name list. -/
def pkgUnderscore : FSNode :=
  .dir "pkg" (.consOk (.pyFile "_foo.py" (.ok (some [Stmt.functionDef "bar"]))) .nil)

/-- The index bytes generated for `pkgUnderscore`: the underscore-initial
stem `_foo` is emitted both as a module import and in `__all__`. -/
def underscoreText : String :=
  "from . import _foo\n\nfrom ._foo import (\n    bar,\n)\n\n__all__ = [\n    \"_foo\",\n    \"bar\",\n]\n"

/-- A directory whose enumeration yields one failed entry and one good
module `a.py` containing `def f(): pass`. -/
def pkgWithWalkErr : FSNode :=
  .dir "pkg" (.consErr "simulated I O error"
    (.consOk (.pyFile "a.py" (.ok (some [Stmt.functionDef "f"]))) .nil))

/-- The index bytes generated for `pkgWithWalkErr`. -/
def walkErrText : String :=
  "from . import a\n\nfrom .a import (\n    f,\n)\n\n__all__ = [\n    \"a\",\n    \"f\",\n]\n"

/-- A tree with two modules: `pkg/a.py` containing `def x(): pass` and
`pkg/b.py` containing `def y(): pass`. -/
def pkgTwo : FSNode :=
  .dir "pkg" (.consOk (.pyFile "a.py" (.ok (some [Stmt.functionDef "x"])))
    (.consOk (.pyFile "b.py" (.ok (some [Stmt.functionDef "y"]))) .nil))

/-- The statement list aggregated for `pkgTwo`. -/
def pkgTwoStatements : List Imports :=
  [.Import "a", .FromImport "a" "x", .Import "b", .FromImport "b" "y"]

/-- The index bytes for `pkgTwo` when the hash map yields key `a` before
key `b`. -/
def pkgTwoTextAB : String :=
  "from . import a\nfrom . import b\n\nfrom .a import (\n    x,\n)\nfrom .b import (\n    y,\n)\n\n__all__ = [\n    \"a\",\n    \"b\",\n    \"x\",\n    \"y\",\n]\n"

/-- The index bytes for `pkgTwo` when the hash map yields key `b` before
key `a`. -/
def pkgTwoTextBA : String :=
  "from . import a\nfrom . import b\n\nfrom .b import (\n    y,\n)\nfrom .a import (\n    x,\n)\n\n__all__ = [\n    \"a\",\n    \"b\",\n    \"y\",\n    \"x\",\n]\n"

/-! ## Order lemmas: the string order is a total, transitive, antisymmetric
relation, so sorting is permutation-invariant -/

theorem charToNat_injective {a b : Char} (h : a.toNat = b.toNat) : a = b :=
  Char.ext (UInt32.ext h)

theorem lexLe_total : ∀ as bs : List Char, lexLe as bs = true ∨ lexLe bs as = true
  | [], _ => Or.inl rfl
  | _ :: _, [] => Or.inr rfl
  | a :: as, b :: bs => by
    by_cases hab : a = b
    · subst hab
      rcases lexLe_total as bs with h | h
      · exact Or.inl (by simpa [lexLe] using h)
      · exact Or.inr (by simpa [lexLe] using h)
    · have hne : a.toNat ≠ b.toNat := fun hcontra => hab (charToNat_injective hcontra)
      have hba : b ≠ a := fun hcontra => hab hcontra.symm
      rcases Nat.lt_or_ge a.toNat b.toNat with h | h
      · exact Or.inl (by simp [lexLe, hab, charLt, h])
      · have hlt : b.toNat < a.toNat := lt_of_le_of_ne h fun hcontra => hne hcontra.symm
        exact Or.inr (by simp [lexLe, hba, charLt, hlt])

theorem lexLe_trans :
    ∀ as bs cs : List Char,
      lexLe as bs = true → lexLe bs cs = true → lexLe as cs = true
  | [], _, _, _, _ => rfl
  | _ :: _, [], _, h1, _ => by simp [lexLe] at h1
  | _ :: _, _ :: _, [], _, h2 => by simp [lexLe] at h2
  | a :: as, b :: bs, c :: cs, h1, h2 => by
    by_cases hab : a = b <;> by_cases hbc : b = c
    · subst hab; subst hbc
      simp only [lexLe, if_pos rfl] at h1 h2 ⊢
      exact lexLe_trans as bs cs h1 h2
    · subst hab
      simpa [lexLe, hbc] using h2
    · subst hbc
      simpa [lexLe, hab] using h1
    · simp only [lexLe, if_neg hab, charLt] at h1
      simp only [lexLe, if_neg hbc, charLt] at h2
      have hac : a.toNat < c.toNat := Nat.lt_trans (by simpa using h1) (by simpa using h2)
      have hne : a ≠ c := fun hcontra => by
        subst hcontra; exact Nat.lt_irrefl _ hac
      simp [lexLe, hne, charLt, hac]

theorem lexLe_antisymm :
    ∀ as bs : List Char, lexLe as bs = true → lexLe bs as = true → as = bs
  | [], [], _, _ => rfl
  | [], _ :: _, _, h2 => by simp [lexLe] at h2
  | _ :: _, [], h1, _ => by simp [lexLe] at h1
  | a :: as, b :: bs, h1, h2 => by
    by_cases hab : a = b
    · subst hab
      simp only [lexLe, if_pos rfl] at h1 h2
      rw [lexLe_antisymm as bs h1 h2]
    · have hba : b ≠ a := fun hcontra => hab hcontra.symm
      simp only [lexLe, if_neg hab, if_neg hba, charLt, decide_eq_true_eq] at h1 h2
      exfalso
      omega

instance : IsTotal String fun a b => strLe a b = true :=
  ⟨fun a b => lexLe_total a.data b.data⟩

instance : IsTrans String fun a b => strLe a b = true :=
  ⟨fun a b c => lexLe_trans a.data b.data c.data⟩

instance : IsAntisymm String fun a b => strLe a b = true :=
  ⟨fun a b h1 h2 => String.ext (lexLe_antisymm a.data b.data h1 h2)⟩

/-- Sorting by the string order is invariant under permutation of the
input: this is what makes `sort_imports = true` deterministic. -/
theorem sortStrings_congr {l1 l2 : List String} (h : l1.Perm l2) :
    sortStrings l1 = sortStrings l2 :=
  List.eq_of_perm_of_sorted
    (((List.perm_insertionSort _ l1).trans h).trans
      (List.perm_insertionSort _ l2).symm)
    (List.sorted_insertionSort _ l1) (List.sorted_insertionSort _ l2)

/-! ## Renderer structure lemmas -/

theorem emitImports_eq :
    ∀ (ms : List String) (c : String) (al : List String),
      emitImports ms (c, al) = (c ++ importLinesText ms, al ++ ms)
  | [], c, al => by simp [emitImports, importLinesText, joinTexts]
  | m :: rest, c, al => by
    simp only [emitImports, importLinesText, joinTexts, List.map_cons]
    rw [emitImports_eq rest]
    simp [importLinesText, String.append_assoc]

theorem emitAttrs_eq :
    ∀ (attrs : List String) (c : String) (al : List String),
      emitAttrs attrs (c, al) =
        (c ++ joinTexts (attrs.map fun a => "    " ++ a ++ ",\n"), al ++ attrs)
  | [], c, al => by simp [emitAttrs, joinTexts]
  | a :: rest, c, al => by
    simp only [emitAttrs, joinTexts, List.map_cons]
    rw [emitAttrs_eq rest]
    simp [String.append_assoc]

theorem emitGroups_eq (fmap : List (String × List String)) :
    ∀ (ks : List String) (c : String) (al : List String),
      emitGroups fmap ks (c, al) =
        (c ++ joinTexts (ks.map (groupBlockText fmap)),
          al ++ ks.flatMap (lookupGroup fmap))
  | [], c, al => by simp [emitGroups, joinTexts]
  | k :: rest, c, al => by
    simp only [emitGroups, List.map_cons, List.flatMap_cons]
    rw [emitAttrs_eq]
    rw [emitGroups_eq fmap rest]
    simp [groupBlockText, joinTexts, String.append_assoc, List.append_assoc]

theorem emitAll_eq :
    ∀ (ns : List String) (c : String), emitAll ns c = c ++ allLinesText ns
  | [], c => by simp [emitAll, allLinesText, joinTexts]
  | n :: rest, c => by
    simp only [emitAll, allLinesText, joinTexts, List.map_cons]
    rw [emitAll_eq rest]
    simp [allLinesText, String.append_assoc]

/-- Claim C6: in every rendered index file, the `__all__` list contains
exactly the module names of the `from . import` lines followed by every
attribute of every `from .m import (...)` group, in the same order in which
those names appear earlier in the same file; hence every imported module
name and every re-exported attribute appears as a double-quoted entry of
that file's `__all__`.  Formally, the rendered text decomposes as the
module-import lines, a blank line, the group blocks, and an `__all__` part
whose entries are `allEntriesOf` — the emitted module names followed by
the emitted groups' attributes, in emission order. -/
theorem C6_all_list_complete (statements : List Imports) (sort_imports : Bool)
    (ksel : List String → List String) :
    process_init_file statements sort_imports ksel =
      importLinesText (importsOf statements sort_imports) ++ "\n" ++
        joinTexts ((mapKeysOf statements sort_imports ksel).map
          (groupBlockText (fmapOf statements sort_imports))) ++
        "\n__all__ = [\n" ++
        allLinesText (allEntriesOf statements sort_imports ksel) ++ "]\n" := by
  unfold process_init_file
  simp only [emitImports_eq, emitGroups_eq, emitAll_eq]
  simp [allEntriesOf, String.append_assoc]

/-- Claim C1 (amended): with `sort_imports = true`, the rendered bytes are
a function of the statement list alone — two runs of the Renderer on the
same input, whatever key iteration orders their hash maps produce
(any two permutations of the keys), yield byte-identical output.  (With
`sort_imports = false` the bytes additionally depend on the map's key
iteration order; see the counterexample.) -/
theorem C1_sorted_render_deterministic (statements : List Imports)
    (ksel1 ksel2 : List String → List String)
    (h : (ksel1 (keysOf statements true)).Perm (ksel2 (keysOf statements true))) :
    process_init_file statements true ksel1 = process_init_file statements true ksel2 := by
  have hk : mapKeysOf statements true ksel1 = mapKeysOf statements true ksel2 := by
    unfold mapKeysOf
    simp only [if_true]
    exact sortStrings_congr h
  unfold process_init_file
  rw [hk]

theorem C1_sorted_render_deterministic_witness :
    process_init_file [Imports.FromImport "a" "x", Imports.FromImport "b" "y"] true
        (fun l => l) =
      process_init_file [Imports.FromImport "a" "x", Imports.FromImport "b" "y"] true
        (fun l => l.reverse) :=
  C1_sorted_render_deterministic _ _ _ (by decide)

/-- Claim C1 fails as stated: with `sort = false`, two runs on the same
statement list whose hash maps yield the two keys in different (but both
legitimate, i.e. permuted) orders produce different bytes. -/
theorem C1_counterexample :
    ((fun (l : List String) => l.reverse)
        (keysOf [Imports.FromImport "a" "x", Imports.FromImport "b" "y"] false)).Perm
      (keysOf [Imports.FromImport "a" "x", Imports.FromImport "b" "y"] false) ∧
    process_init_file [Imports.FromImport "a" "x", Imports.FromImport "b" "y"] false
        (fun l => l) ≠
      process_init_file [Imports.FromImport "a" "x", Imports.FromImport "b" "y"] false
        (fun l => l.reverse) :=
  ⟨by decide, by decide⟩

/-! ## Exposer characterization lemmas -/

theorem pushTupleNames_none_eq :
    ∀ (elts : List Expr) (acc : List String),
      pushTupleNames none elts acc =
        acc ++ (tuple_names elts).filter fun n => !startsWithUnderscore n
  | [], acc => by simp [pushTupleNames, tuple_names]
  | .name n :: es, acc => by
    by_cases h : startsWithUnderscore n <;>
      simp [pushTupleNames, tuple_names, push_name, h, pushTupleNames_none_eq es]
  | .tuple _ :: es, acc => by simp [pushTupleNames, tuple_names, pushTupleNames_none_eq es]
  | .listE _ :: es, acc => by simp [pushTupleNames, tuple_names, pushTupleNames_none_eq es]
  | .strLit _ :: es, acc => by simp [pushTupleNames, tuple_names, pushTupleNames_none_eq es]
  | .other :: es, acc => by simp [pushTupleNames, tuple_names, pushTupleNames_none_eq es]

theorem pushTupleNames_some_eq :
    ∀ (elts : List Expr) (L : List String) (acc : List String),
      pushTupleNames (some L) elts acc =
        acc ++ (tuple_names elts).filter fun n => L.contains n
  | [], L, acc => by simp [pushTupleNames, tuple_names]
  | .name n :: es, L, acc => by
    by_cases h : n ∈ L <;>
      simp [pushTupleNames, tuple_names, push_name, h, pushTupleNames_some_eq es]
  | .tuple _ :: es, L, acc => by simp [pushTupleNames, tuple_names, pushTupleNames_some_eq es]
  | .listE _ :: es, L, acc => by simp [pushTupleNames, tuple_names, pushTupleNames_some_eq es]
  | .strLit _ :: es, L, acc => by simp [pushTupleNames, tuple_names, pushTupleNames_some_eq es]
  | .other :: es, L, acc => by simp [pushTupleNames, tuple_names, pushTupleNames_some_eq es]

/-- Without an `__all__` set, the collection loop appends exactly the
candidates that do not begin with an underscore, in source order. -/
theorem collect_none_eq :
    ∀ (body : List Stmt) (acc : List String),
      collect_names none body acc =
        acc ++ (candidate_names body).filter fun n => !startsWithUnderscore n
  | [], acc => by simp [collect_names, candidate_names]
  | .functionDef n :: rest, acc => by
    by_cases h : startsWithUnderscore n <;>
      simp [collect_names, candidate_names, push_name, h, collect_none_eq rest]
  | .classDef n :: rest, acc => by
    by_cases h : startsWithUnderscore n <;>
      simp [collect_names, candidate_names, push_name, h, collect_none_eq rest]
  | .assign [] v :: rest, acc => by
    simp [collect_names, candidate_names, collect_none_eq rest]
  | .assign (.name n :: ts) v :: rest, acc => by
    by_cases h : startsWithUnderscore n <;>
      simp [collect_names, candidate_names, push_name, h, collect_none_eq rest]
  | .assign (.tuple elts :: ts) v :: rest, acc => by
    simp [collect_names, candidate_names, pushTupleNames_none_eq, collect_none_eq rest,
      List.filter_append]
  | .assign (.listE _ :: ts) v :: rest, acc => by
    simp [collect_names, candidate_names, collect_none_eq rest]
  | .assign (.strLit _ :: ts) v :: rest, acc => by
    simp [collect_names, candidate_names, collect_none_eq rest]
  | .assign (.other :: ts) v :: rest, acc => by
    simp [collect_names, candidate_names, collect_none_eq rest]
  | .other :: rest, acc => by
    simp [collect_names, candidate_names, collect_none_eq rest]

/-- With an `__all__` set `L`, the collection loop appends exactly the
candidates contained in `L`, in source order. -/
theorem collect_some_eq :
    ∀ (body : List Stmt) (L : List String) (acc : List String),
      collect_names (some L) body acc =
        acc ++ (candidate_names body).filter fun n => L.contains n
  | [], L, acc => by simp [collect_names, candidate_names]
  | .functionDef n :: rest, L, acc => by
    by_cases h : n ∈ L <;>
      simp [collect_names, candidate_names, push_name, h, collect_some_eq rest]
  | .classDef n :: rest, L, acc => by
    by_cases h : n ∈ L <;>
      simp [collect_names, candidate_names, push_name, h, collect_some_eq rest]
  | .assign [] v :: rest, L, acc => by
    simp [collect_names, candidate_names, collect_some_eq rest]
  | .assign (.name n :: ts) v :: rest, L, acc => by
    by_cases h : n ∈ L <;>
      simp [collect_names, candidate_names, push_name, h, collect_some_eq rest]
  | .assign (.tuple elts :: ts) v :: rest, L, acc => by
    simp [collect_names, candidate_names, pushTupleNames_some_eq, collect_some_eq rest,
      List.filter_append]
  | .assign (.listE _ :: ts) v :: rest, L, acc => by
    simp [collect_names, candidate_names, collect_some_eq rest]
  | .assign (.strLit _ :: ts) v :: rest, L, acc => by
    simp [collect_names, candidate_names, collect_some_eq rest]
  | .assign (.other :: ts) v :: rest, L, acc => by
    simp [collect_names, candidate_names, collect_some_eq rest]
  | .other :: rest, L, acc => by
    simp [collect_names, candidate_names, collect_some_eq rest]

/-- The detection scan cannot panic when every assignment in the body has
at least one target. -/
theorem scan_all_ne_none :
    ∀ body : List Stmt,
      (∀ ts v, Stmt.assign ts v ∈ body → ts ≠ []) → scan_all body ≠ none
  | [], _ => by simp [scan_all]
  | .assign ts v :: rest, h => by
    have hts : ts ≠ [] := h ts v (List.mem_cons_self _ _)
    have hrest : ∀ ts v, Stmt.assign ts v ∈ rest → ts ≠ [] :=
      fun ts v hm => h ts v (List.mem_cons_of_mem _ hm)
    cases ts with
    | nil => exact absurd rfl hts
    | cons t ts2 =>
      cases t with
      | name id =>
        by_cases hid : id = "__all__"
        · subst hid
          cases v <;> simp [scan_all]
        · simp only [scan_all, if_neg hid]
          exact scan_all_ne_none rest hrest
      | tuple es =>
        simp only [scan_all]
        exact scan_all_ne_none rest hrest
      | listE es =>
        simp only [scan_all]
        exact scan_all_ne_none rest hrest
      | strLit s =>
        simp only [scan_all]
        exact scan_all_ne_none rest hrest
      | other =>
        simp only [scan_all]
        exact scan_all_ne_none rest hrest
  | .functionDef n :: rest, h => by
    simp only [scan_all]
    exact scan_all_ne_none rest fun ts v hm => h ts v (List.mem_cons_of_mem _ hm)
  | .classDef n :: rest, h => by
    simp only [scan_all]
    exact scan_all_ne_none rest fun ts v hm => h ts v (List.mem_cons_of_mem _ hm)
  | .other :: rest, h => by
    simp only [scan_all]
    exact scan_all_ne_none rest fun ts v hm => h ts v (List.mem_cons_of_mem _ hm)

/-- Claim C4: with `respect_all = true` and a module whose scan accepts a
public-name list `L` (first top-level assignment whose first target is
`__all__`, with a list-of-literals right-hand side), the Exposer returns
exactly the candidate names — functions, classes, bare-name and
tuple-pattern assignment targets, in source order — that belong to `L`:
underscore-initial names included when in `L`, and names of `L` that never
occur as candidates excluded. -/
theorem C4_public_list_precedence (body : List Stmt) (L : List String)
    (h : scan_all body = some (some L)) :
    get_exposed_names (some body) true =
      some ((candidate_names body).filter fun n => L.contains n) := by
  unfold get_exposed_names
  simp only [if_true, h]
  rw [collect_some_eq]
  simp

theorem C4_public_list_precedence_witness :
    get_exposed_names (some [Stmt.assign [Expr.name "__all__"]
        (Expr.listE [Expr.strLit "_h", Expr.strLit "absent"]),
      Stmt.functionDef "_h", Stmt.functionDef "pub"]) true = some ["_h"] :=
  (C4_public_list_precedence
    [Stmt.assign [Expr.name "__all__"] (Expr.listE [Expr.strLit "_h", Expr.strLit "absent"]),
      Stmt.functionDef "_h", Stmt.functionDef "pub"]
    ["_h", "absent"] (by decide)).trans (by decide)

/-- Claim C5 fails as stated: a module whose first `__all__` assignment is
`__all__ = [1, 2]` (a list literal with no string-literal element) does
*not* expose the same names as the module without the assignment — the
declaration still counts, with the empty name set, so nothing is exposed,
while the module without it exposes `foo`. -/
theorem C5_counterexample :
    get_exposed_names (some [Stmt.assign [Expr.name "__all__"]
        (Expr.listE [Expr.other, Expr.other]), Stmt.functionDef "foo"]) true ≠
      get_exposed_names (some [Stmt.functionDef "foo"]) true ∧
    get_exposed_names (some [Stmt.assign [Expr.name "__all__"]
        (Expr.listE [Expr.other, Expr.other]), Stmt.functionDef "foo"]) true = some [] ∧
    get_exposed_names (some [Stmt.functionDef "foo"]) true = some ["foo"] :=
  ⟨by decide, by decide, by decide⟩

/-- The scan ignores a prefix of statements it passes over. -/
theorem scan_all_append_skipped :
    ∀ (pre body2 : List Stmt), (∀ st ∈ pre, scanSkips st = true) →
      scan_all (pre ++ body2) = scan_all body2
  | [], _, _ => rfl
  | stmt :: pre, body2, h => by
    have h1 : scanSkips stmt = true := h stmt (List.mem_cons_self _ _)
    have h2 : ∀ st ∈ pre, scanSkips st = true :=
      fun st hm => h st (List.mem_cons_of_mem _ hm)
    cases stmt with
    | functionDef n => simpa [scan_all] using scan_all_append_skipped pre body2 h2
    | classDef n => simpa [scan_all] using scan_all_append_skipped pre body2 h2
    | other => simpa [scan_all] using scan_all_append_skipped pre body2 h2
    | assign ts v =>
      cases ts with
      | nil => simp [scanSkips] at h1
      | cons t ts2 =>
        cases t with
        | name id =>
          have hid : ¬ id = "__all__" := by
            by_cases hc : id = "__all__" <;> simp_all [scanSkips]
          simpa [scan_all, hid] using scan_all_append_skipped pre body2 h2
        | tuple es => simpa [scan_all] using scan_all_append_skipped pre body2 h2
        | listE es => simpa [scan_all] using scan_all_append_skipped pre body2 h2
        | strLit sl => simpa [scan_all] using scan_all_append_skipped pre body2 h2
        | other => simpa [scan_all] using scan_all_append_skipped pre body2 h2

/-- Claim C5 (amended): whenever the first top-level assignment whose first
target is `__all__` — wherever it occurs in the module and whatever its
remaining targets — has a non-list right-hand side, the Exposer treats the
declaration as "not declared" and falls back to the underscore rule: with
`respect_all = true` it returns exactly what it returns with
`respect_all = false`, and never an error.  A list-literal right-hand side,
however, always counts as a declaration, with only its string-literal
elements collected — in particular a module with `__all__ = [1, 2]`
exposes nothing. -/
theorem C5_malformed_all (pre : List Stmt) (ts : List Expr) (v : Expr)
    (rest : List Stmt) (hpre : ∀ st ∈ pre, scanSkips st = true)
    (hv : isListE v = false) :
    get_exposed_names
        (some (pre ++ Stmt.assign (Expr.name "__all__" :: ts) v :: rest)) true =
      get_exposed_names
        (some (pre ++ Stmt.assign (Expr.name "__all__" :: ts) v :: rest)) false ∧
    (get_exposed_names
        (some (pre ++ Stmt.assign (Expr.name "__all__" :: ts) v :: rest)) true).isSome
      = true ∧
    get_exposed_names (some [Stmt.assign [Expr.name "__all__"]
        (Expr.listE [Expr.other, Expr.other]), Stmt.functionDef "foo"]) true = some [] := by
  have hscan :
      scan_all (pre ++ Stmt.assign (Expr.name "__all__" :: ts) v :: rest) = some none := by
    rw [scan_all_append_skipped pre _ hpre]
    cases v <;> simp_all [scan_all, isListE]
  refine ⟨?_, ?_, by decide⟩
  · simp [get_exposed_names, hscan]
  · simp [get_exposed_names, hscan]

theorem C5_malformed_all_witness :
    get_exposed_names (some [Stmt.functionDef "foo",
        Stmt.assign [Expr.name "__all__"] Expr.other,
        Stmt.assign [Expr.name "Visible"] Expr.other]) true =
      get_exposed_names (some [Stmt.functionDef "foo",
        Stmt.assign [Expr.name "__all__"] Expr.other,
        Stmt.assign [Expr.name "Visible"] Expr.other]) false :=
  (C5_malformed_all [Stmt.functionDef "foo"] [] Expr.other
    [Stmt.assign [Expr.name "Visible"] Expr.other] (by decide) (by decide)).1

/-- Claim C10: the `__all__`-detection scan indexes `assign.targets[0]`
without an emptiness check while the candidate loop checks
`assign.targets.len() == 0`; consequently (i) whenever every assignment of
the body has at least one target the Exposer returns a value under either
flag, (ii) a body with an empty-target assignment makes the scan hit the
out-of-bounds branch when `respect_all = true`, and (iii) the very same
body is handled totally when `respect_all = false`, where only the guarded
loop runs. -/
theorem C10_scan_totality :
    (∀ (body : List Stmt) (r : Bool),
        (∀ ts v, Stmt.assign ts v ∈ body → ts ≠ []) →
        (get_exposed_names (some body) r).isSome = true) ∧
    get_exposed_names (some [Stmt.assign [] Expr.other]) true = none ∧
    (get_exposed_names (some [Stmt.assign [] Expr.other]) false).isSome = true := by
  refine ⟨?_, by decide, by decide⟩
  intro body r h
  unfold get_exposed_names
  cases r
  · simp
  · simp only [if_true]
    cases hs : scan_all body with
    | none => exact absurd hs (scan_all_ne_none body h)
    | some all => simp

theorem C10_scan_totality_witness :
    (get_exposed_names (some [Stmt.functionDef "f"]) true).isSome = true :=
  C10_scan_totality.1 [Stmt.functionDef "f"] true (by intro ts v h; simp at h)

/-! ## Scenario theorems -/

/-- Claim C3 fails as stated under `sort_imports = true` (the CLI
default): the group attributes and `__all__` entries are sorted, and in
byte order `X` precedes `foo`, so the generated bytes differ from the
claimed ones, which list `foo` before `X`. -/
theorem C3_counterexample :
    make_init pkgScenario1 true true (fun l => l) =
      some (.ok (scenario1Statements,
        [([], scenario1Statements, scenario1TextSorted)])) ∧
    scenario1TextSorted ≠ scenario1TextUnsorted := by
  constructor
  · simp [pkgScenario1, scenario1Statements, scenario1TextSorted, make_init, aggregate,
      skipChild, fnameOf, stemOf, get_exposed_names, scan_all, collect_names, push_name,
      startsWithUnderscore, isDirNode, flattenStmt]
    decide
  · decide

/-- Claim C3 (amended): with `sort_imports = false` (discovery order) the
run on `pkg/a.py` containing `def foo(): pass` and `X = 1` writes exactly
one file, `pkg/__init__.py`, whose bytes are exactly `from . import a`,
blank line, `from .a import (` / `    foo,` / `    X,` / `)`, blank line,
`__all__ = [` / `    "a",` / `    "foo",` / `    "X",` / `]` and a trailing
newline — `foo` before `X` in both places; with `sort_imports = true` the
two names are swapped (see the counterexample).  The hypothesis states
that the hash map yields its single key in some order, i.e. any
permutation of `["a"]`. -/
theorem C3_scenario1 (ksel : List String → List String)
    (h : (ksel ["a"]).Perm ["a"]) :
    make_init pkgScenario1 true false ksel =
      some (.ok (scenario1Statements,
        [([], scenario1Statements, scenario1TextUnsorted)])) := by
  have hk : ksel ["a"] = ["a"] := List.perm_singleton.mp h
  simp [pkgScenario1, scenario1Statements, scenario1TextUnsorted, make_init, aggregate,
    skipChild, fnameOf, stemOf, get_exposed_names, scan_all, collect_names, push_name,
    startsWithUnderscore, isDirNode, flattenStmt, process_init_file, importsOf,
    fromImportsOf, importsOfRaw, fromImportsOfRaw, fmapOf, buildMap, groupInsert,
    keysOf, mapKeysOf, hk, lookupGroup, emitImports, emitAttrs, emitGroups, emitAll]

theorem C3_scenario1_witness :
    make_init pkgScenario1 true false (fun l => l) =
      some (.ok (scenario1Statements,
        [([], scenario1Statements, scenario1TextUnsorted)])) :=
  C3_scenario1 (fun l => l) (by decide)

/-! ## Tree lemmas: empty aggregations perform no writes -/

mutual
theorem make_init_empty_writes (node : FSNode) (r s : Bool)
    (k : List String → List String) (ws : List WriteEvent)
    (h : make_init node r s k = some (.ok ([], ws))) : ws = [] := by
  cases node with
  | pyFile f parsed =>
    cases parsed with
    | error e => simp [make_init] at h
    | ok m =>
      simp only [make_init] at h
      cases hg : get_exposed_names m r with
      | none => rw [hg] at h; simp at h
      | some names => rw [hg] at h; simp at h; exact h.2
  | otherFile f => simp [make_init] at h
  | dir f children =>
    simp only [make_init] at h
    cases hagg : aggregate children r s k with
    | none => rw [hagg] at h; simp at h
    | some res =>
      rw [hagg] at h
      cases res with
      | error e => simp at h
      | ok p =>
        obtain ⟨result, ws0⟩ := p
        by_cases hres : result.isEmpty
        · simp [hres] at h
          obtain ⟨h1, h2⟩ := h
          subst h2
          exact aggregate_empty_writes children r s k ws0 (by rw [hagg, h1])
        · simp [hres] at h
          exact absurd h.1 (by simpa [List.isEmpty_iff] using hres)
termination_by sizeOf node

theorem aggregate_empty_writes (cs : FSChildren) (r s : Bool)
    (k : List String → List String) (ws : List WriteEvent)
    (h : aggregate cs r s k = some (.ok ([], ws))) : ws = [] := by
  cases cs with
  | nil =>
    simp [aggregate] at h
    exact h
  | consErr m rest =>
    exact aggregate_empty_writes rest r s k ws (by simpa [aggregate] using h)
  | consOk c rest =>
    simp only [aggregate] at h
    by_cases hskip : skipChild c
    · rw [if_pos hskip] at h
      exact aggregate_empty_writes rest r s k ws h
    · rw [if_neg hskip] at h
      cases hmi : make_init c r s k with
      | none => rw [hmi] at h; simp at h
      | some resc =>
        rw [hmi] at h
        cases resc with
        | error e => simp at h
        | ok pc =>
          obtain ⟨subInit, ws1⟩ := pc
          cases hagg : aggregate rest r s k with
          | none => rw [hagg] at h; simp at h
          | some resr =>
            rw [hagg] at h
            cases resr with
            | error e => simp at h
            | ok pr =>
              obtain ⟨st, ws2⟩ := pr
              by_cases hde : isDirNode c && subInit.isEmpty
              · simp [hde] at h
                obtain ⟨h1, h2⟩ := h
                subst h2
                have hsub : subInit = [] :=
                  List.isEmpty_iff.mp (Bool.and_eq_true_iff.mp hde).2
                have hws1 : ws1 = [] :=
                  make_init_empty_writes c r s k ws1 (by rw [hmi, hsub])
                have hws2 : ws2 = [] :=
                  aggregate_empty_writes rest r s k ws2 (by rw [hagg, h1])
                rw [hws1, hws2]
                simp
              · simp [hde] at h
termination_by sizeOf cs
end

/-- Inserting a directory child whose own run yields an empty statement
list anywhere into a child list leaves the aggregation — statements and
writes — unchanged. -/
theorem aggregate_insert_empty_dir (d : FSNode) (r s : Bool)
    (k : List String → List String) (ws : List WriteEvent)
    (hd : isDirNode d = true)
    (hmi : make_init d r s k = some (.ok ([], ws))) :
    ∀ cs1 cs2 : FSChildren,
      aggregate (capp cs1 (.consOk d cs2)) r s k = aggregate (capp cs1 cs2) r s k
  | .nil, cs2 => by
    have hws : ws = [] := make_init_empty_writes d r s k ws hmi
    subst hws
    by_cases hskip : skipChild d
    · simp [capp, aggregate, hskip]
    · simp only [capp, aggregate, if_neg hskip, hmi]
      cases hagg : aggregate cs2 r s k with
      | none => rfl
      | some resr =>
        cases resr with
        | error e => rfl
        | ok pr =>
          obtain ⟨st, ws2⟩ := pr
          simp [hd]
  | .consErr m rest, cs2 => by
    simp only [capp, aggregate]
    exact aggregate_insert_empty_dir d r s k ws hd hmi rest cs2
  | .consOk c rest, cs2 => by
    simp only [capp, aggregate]
    rw [aggregate_insert_empty_dir d r s k ws hd hmi rest cs2]

/-- Claim C7: a directory whose recursive processing yields an empty
statement list receives no `__init__.py` — in fact its whole run performs
no write at all — and the parent's aggregation over a child list containing
that directory equals the aggregation without it, so no `ImportModule` and
no `FromModule` statement mentioning the directory is produced. -/
theorem C7_empty_dir_never_written_nor_referenced (f : String) (cs : FSChildren)
    (r s : Bool) (k : List String → List String) (ws : List WriteEvent)
    (cs1 cs2 : FSChildren)
    (h : make_init (.dir f cs) r s k = some (.ok ([], ws))) :
    ws = [] ∧
    aggregate (capp cs1 (.consOk (.dir f cs) cs2)) r s k =
      aggregate (capp cs1 cs2) r s k :=
  ⟨make_init_empty_writes _ r s k ws h,
    aggregate_insert_empty_dir (.dir f cs) r s k ws rfl h cs1 cs2⟩

theorem C7_empty_dir_never_written_nor_referenced_witness :
    ([] : List WriteEvent) = [] ∧
    aggregate (capp (.consOk (.pyFile "a.py" (.ok (some [Stmt.functionDef "g"]))) .nil)
        (.consOk (.dir "empty" .nil) .nil)) true false (fun l => l) =
      aggregate (capp (.consOk (.pyFile "a.py" (.ok (some [Stmt.functionDef "g"]))) .nil)
        .nil) true false (fun l => l) :=
  C7_empty_dir_never_written_nor_referenced "empty" .nil true false (fun l => l) []
    (.consOk (.pyFile "a.py" (.ok (some [Stmt.functionDef "g"]))) .nil) .nil
    (by simp [make_init, aggregate])

/-! ## Tree lemmas: which failures the traversal reports -/

mutual
theorem make_init_isErr (node : FSNode) (r s : Bool)
    (k : List String → List String) (res : Except String (List Imports × List WriteEvent))
    (h : make_init node r s k = some res) : isErr res = hasFailure node := by
  cases node with
  | pyFile f parsed =>
    cases parsed with
    | error e =>
      simp only [make_init, Option.some.injEq] at h
      subst h
      simp [isErr, hasFailure]
    | ok m =>
      simp only [make_init] at h
      cases hg : get_exposed_names m r with
      | none => rw [hg] at h; simp at h
      | some names =>
        rw [hg] at h
        simp only [Option.some.injEq] at h
        subst h
        simp [isErr, hasFailure]
  | otherFile f =>
    simp only [make_init, Option.some.injEq] at h
    subst h
    simp [isErr, hasFailure]
  | dir f children =>
    simp only [make_init] at h
    rw [hasFailure]
    cases hagg : aggregate children r s k with
    | none => rw [hagg] at h; simp at h
    | some resa =>
      rw [hagg] at h
      cases resa with
      | error e =>
        simp only [Option.some.injEq] at h
        subst h
        exact aggregate_isErr children r s k _ hagg
      | ok p =>
        obtain ⟨result, ws0⟩ := p
        have hok : isErr (Except.ok (result, ws0)) = anyChildFailure children :=
          aggregate_isErr children r s k _ hagg
        by_cases hres : result.isEmpty
        · simp only [hres, if_true, Option.some.injEq] at h
          subst h
          simpa [isErr] using hok
        · simp only [hres, Bool.false_eq_true, if_false, Option.some.injEq] at h
          subst h
          simpa [isErr] using hok
termination_by sizeOf node

theorem aggregate_isErr (cs : FSChildren) (r s : Bool)
    (k : List String → List String) (res : Except String (List Imports × List WriteEvent))
    (h : aggregate cs r s k = some res) : isErr res = anyChildFailure cs := by
  cases cs with
  | nil =>
    simp only [aggregate, Option.some.injEq] at h
    subst h
    simp [isErr, anyChildFailure]
  | consErr m rest =>
    simp only [aggregate] at h
    rw [anyChildFailure]
    exact aggregate_isErr rest r s k res h
  | consOk c rest =>
    simp only [aggregate] at h
    rw [anyChildFailure]
    by_cases hskip : skipChild c
    · rw [if_pos hskip] at h
      simp only [hskip, if_true]
      simp only [Bool.false_or]
      exact aggregate_isErr rest r s k res h
    · rw [if_neg hskip] at h
      simp only [hskip, if_false]
      cases hmi : make_init c r s k with
      | none => rw [hmi] at h; simp at h
      | some resc =>
        rw [hmi] at h
        have hc : isErr resc = hasFailure c := make_init_isErr c r s k resc hmi
        cases resc with
        | error e =>
          simp only [Option.some.injEq] at h
          subst h
          simp only [isErr] at hc
          simp [isErr, ← hc]
        | ok pc =>
          obtain ⟨subInit, ws1⟩ := pc
          simp only [isErr] at hc
          cases hagg : aggregate rest r s k with
          | none => rw [hagg] at h; simp at h
          | some resr =>
            rw [hagg] at h
            have hr : isErr resr = anyChildFailure rest :=
              aggregate_isErr rest r s k resr hagg
            cases resr with
            | error e =>
              simp only [Option.some.injEq] at h
              subst h
              simp only [isErr] at hr
              simp [isErr, ← hc, ← hr]
            | ok pr =>
              obtain ⟨st, ws2⟩ := pr
              simp only [isErr] at hr
              by_cases hde : isDirNode c && subInit.isEmpty
              · simp only [hde, if_true, Option.some.injEq] at h
                subst h
                simp [isErr, ← hc, ← hr]
              · simp only [hde, Bool.false_eq_true, if_false, Option.some.injEq] at h
                subst h
                simp [isErr, ← hc, ← hr]
termination_by sizeOf cs
end


/-- Claim C9 fails as stated: a directory entry whose enumeration fails
with an I/O error is silently skipped, the run does not abort, and a
statement list (plus an index write) is returned even though a failure
occurred during traversal. -/
theorem C9_counterexample :
    make_init pkgWithWalkErr true false (fun l => l) =
      some (.ok ([.Import "a", .FromImport "a" "f"],
        [([], [.Import "a", .FromImport "a" "f"], walkErrText)])) := by
  simp [pkgWithWalkErr, walkErrText, make_init, aggregate, skipChild, fnameOf, stemOf,
    get_exposed_names, scan_all, collect_names, push_name, startsWithUnderscore,
    isDirNode, flattenStmt]
  decide

/-! ## Tree lemmas: provenance of emitted names -/

theorem stmtNameOK_mono {l1 l2 : List String} (hsub : ∀ x ∈ l1, x ∈ l2) :
    ∀ i : Imports, stmtNameOK l1 i → stmtNameOK l2 i
  | .Import m, hi => hsub m hi
  | .FromImport m a, hi =>
    ⟨hsub m hi.1, hi.2.elim (fun ha => Or.inl (hsub a ha)) Or.inr⟩
  | .Attribute _, hi => hi

theorem stmtNameOK_flatten {l : List String} {stem : String} (hstem : stem ∈ l) :
    ∀ i : Imports, stmtNameOK l i → stmtNameOK l (flattenStmt stem i)
  | .Import _, hi => ⟨hstem, Or.inl hi⟩
  | .FromImport _ _, hi => ⟨hstem, hi.2⟩
  | .Attribute _, hi => ⟨hstem, Or.inr hi⟩

theorem stemOf_fname_mem_stems (c : FSNode) : stemOf (fnameOf c) ∈ stems c := by
  cases c <;> simp [stems, fnameOf]

/-- When the scan accepts no declaration (or is off), every name the
Exposer returns avoids a leading underscore. -/
theorem exposed_names_no_underscore (m : Option (List Stmt)) (r : Bool)
    (names : List String) (hp : parsedScansNone (Except.ok m) = true)
    (h : get_exposed_names m r = some names) :
    ∀ n ∈ names, startsWithUnderscore n = false := by
  cases m with
  | none =>
    simp only [get_exposed_names, Option.some.injEq] at h
    subst h
    simp
  | some body =>
    have hcoll : names = collect_names none body [] := by
      cases r with
      | false => simpa [get_exposed_names] using h.symm
      | true =>
        have hs : scan_all body = some none := by simpa [parsedScansNone] using hp
        simpa [get_exposed_names, hs] using h.symm
    intro n hn
    rw [hcoll, collect_none_eq] at hn
    simp only [List.nil_append, List.mem_filter, Bool.not_eq_eq_eq_not,
      Bool.not_true] at hn
    exact hn.2

mutual
/-- In a tree without accepted public-name declarations, every statement a
node's run produces (and every statement list it renders into a write)
mentions, in module position, only stems of the tree, and in attribute
position only stems or names with no leading underscore. -/
theorem make_init_names_ok (node : FSNode) (r s : Bool)
    (k : List String → List String) (st : List Imports) (ws : List WriteEvent)
    (hnp : noPublicList node = true)
    (h : make_init node r s k = some (.ok (st, ws))) :
    (∀ i ∈ st, stmtNameOK (stems node) i) ∧
      (∀ w ∈ ws, ∀ i ∈ w.2.1, stmtNameOK (stems node) i) := by
  cases node with
  | pyFile f parsed =>
    cases parsed with
    | error e => simp [make_init] at h
    | ok m =>
      simp only [make_init] at h
      cases hg : get_exposed_names m r with
      | none => rw [hg] at h; simp at h
      | some names =>
        rw [hg] at h
        simp only [Option.some.injEq, Except.ok.injEq, Prod.mk.injEq] at h
        obtain ⟨h1, h2⟩ := h
        subst h1
        subst h2
        refine ⟨?_, by simp⟩
        intro i hi
        simp only [List.mem_map] at hi
        obtain ⟨n, hn, rfl⟩ := hi
        have hp : parsedScansNone (Except.ok m) = true := by
          simpa [noPublicList] using hnp
        exact exposed_names_no_underscore m r names hp hg n hn
  | otherFile f => simp [make_init] at h
  | dir f children =>
    have hnpc : noPublicListChildren children = true := by
      simpa [noPublicList] using hnp
    have hsub : ∀ x ∈ stemsChildren children, x ∈ stems (FSNode.dir f children) := by
      intro x hx
      simp [stems, hx]
    simp only [make_init] at h
    cases hagg : aggregate children r s k with
    | none => rw [hagg] at h; simp at h
    | some resa =>
      rw [hagg] at h
      cases resa with
      | error e => simp at h
      | ok p =>
        obtain ⟨result, ws0⟩ := p
        have IH := aggregate_names_ok children r s k result ws0 hnpc hagg
        have IH1 : ∀ i ∈ result, stmtNameOK (stems (FSNode.dir f children)) i :=
          fun i hi => stmtNameOK_mono hsub i (IH.1 i hi)
        have IH2 : ∀ w ∈ ws0, ∀ i ∈ w.2.1, stmtNameOK (stems (FSNode.dir f children)) i :=
          fun w hw i hi => stmtNameOK_mono hsub i (IH.2 w hw i hi)
        by_cases hres : result.isEmpty
        · simp only [hres, if_true, Option.some.injEq, Except.ok.injEq,
            Prod.mk.injEq] at h
          obtain ⟨h1, h2⟩ := h
          subst h1; subst h2
          exact ⟨IH1, IH2⟩
        · simp only [hres, Bool.false_eq_true, if_false, Option.some.injEq,
            Except.ok.injEq, Prod.mk.injEq] at h
          obtain ⟨h1, h2⟩ := h
          subst h1; subst h2
          refine ⟨IH1, ?_⟩
          intro w hw
          simp only [List.mem_append, List.mem_singleton] at hw
          rcases hw with hw | hw
          · exact IH2 w hw
          · subst hw
            exact IH1
termination_by sizeOf node

theorem aggregate_names_ok (cs : FSChildren) (r s : Bool)
    (k : List String → List String) (st : List Imports) (ws : List WriteEvent)
    (hnp : noPublicListChildren cs = true)
    (h : aggregate cs r s k = some (.ok (st, ws))) :
    (∀ i ∈ st, stmtNameOK (stemsChildren cs) i) ∧
      (∀ w ∈ ws, ∀ i ∈ w.2.1, stmtNameOK (stemsChildren cs) i) := by
  cases cs with
  | nil =>
    simp only [aggregate, Option.some.injEq, Except.ok.injEq, Prod.mk.injEq] at h
    obtain ⟨h1, h2⟩ := h
    subst h1; subst h2
    exact ⟨by simp, by simp⟩
  | consErr m rest =>
    simp only [aggregate] at h
    have hnpr : noPublicListChildren rest = true := by
      simpa [noPublicListChildren] using hnp
    have IH := aggregate_names_ok rest r s k st ws hnpr h
    simpa [stemsChildren] using IH
  | consOk c rest =>
    have hnpc : noPublicList c = true := by
      simp [noPublicListChildren, Bool.and_eq_true_iff] at hnp
      exact hnp.1
    have hnpr : noPublicListChildren rest = true := by
      simp [noPublicListChildren, Bool.and_eq_true_iff] at hnp
      exact hnp.2
    have hsubc : ∀ x ∈ stems c, x ∈ stemsChildren (FSChildren.consOk c rest) := by
      intro x hx
      simp [stemsChildren, hx]
    have hsubr : ∀ x ∈ stemsChildren rest, x ∈ stemsChildren (FSChildren.consOk c rest) := by
      intro x hx
      simp [stemsChildren, hx]
    simp only [aggregate] at h
    by_cases hskip : skipChild c
    · rw [if_pos hskip] at h
      have IH := aggregate_names_ok rest r s k st ws hnpr h
      exact ⟨fun i hi => stmtNameOK_mono hsubr i (IH.1 i hi),
        fun w hw i hi => stmtNameOK_mono hsubr i (IH.2 w hw i hi)⟩
    · rw [if_neg hskip] at h
      cases hmi : make_init c r s k with
      | none => rw [hmi] at h; simp at h
      | some resc =>
        rw [hmi] at h
        cases resc with
        | error e => simp at h
        | ok pc =>
          obtain ⟨subInit, ws1⟩ := pc
          have IHc := make_init_names_ok c r s k subInit ws1 hnpc hmi
          have ppc1 : ∀ i ∈ subInit, stmtNameOK (stemsChildren (FSChildren.consOk c rest)) i :=
            fun i hi => stmtNameOK_mono hsubc i (IHc.1 i hi)
          have ppc2 : ∀ w ∈ ws1, ∀ i ∈ w.2.1,
              stmtNameOK (stemsChildren (FSChildren.consOk c rest)) i :=
            fun w hw i hi => stmtNameOK_mono hsubc i (IHc.2 w hw i hi)
          have hstem : stemOf (fnameOf c) ∈ stemsChildren (FSChildren.consOk c rest) :=
            hsubc _ (stemOf_fname_mem_stems c)
          cases hagg : aggregate rest r s k with
          | none => rw [hagg] at h; simp at h
          | some resr =>
            rw [hagg] at h
            cases resr with
            | error e => simp at h
            | ok pr =>
              obtain ⟨str, wsr⟩ := pr
              have IHr := aggregate_names_ok rest r s k str wsr hnpr hagg
              have ppr1 : ∀ i ∈ str, stmtNameOK (stemsChildren (FSChildren.consOk c rest)) i :=
                fun i hi => stmtNameOK_mono hsubr i (IHr.1 i hi)
              have ppr2 : ∀ w ∈ wsr, ∀ i ∈ w.2.1,
                  stmtNameOK (stemsChildren (FSChildren.consOk c rest)) i :=
                fun w hw i hi => stmtNameOK_mono hsubr i (IHr.2 w hw i hi)
              have hwrites : ∀ w ∈ (ws1.map fun w => (fnameOf c :: w.1, w.2)) ++ wsr,
                  ∀ i ∈ w.2.1, stmtNameOK (stemsChildren (FSChildren.consOk c rest)) i := by
                intro w hw i hi
                simp only [List.mem_append, List.mem_map] at hw
                rcases hw with ⟨w1, hw1, rfl⟩ | hw
                · exact ppc2 w1 hw1 i hi
                · exact ppr2 w hw i hi
              by_cases hde : isDirNode c && subInit.isEmpty
              · simp only [hde, if_true, Option.some.injEq, Except.ok.injEq,
                  Prod.mk.injEq] at h
                obtain ⟨h1, h2⟩ := h
                subst h1; subst h2
                exact ⟨ppr1, hwrites⟩
              · simp only [hde, Bool.false_eq_true, if_false, Option.some.injEq,
                  Except.ok.injEq, Prod.mk.injEq] at h
                obtain ⟨h1, h2⟩ := h
                subst h1; subst h2
                refine ⟨?_, hwrites⟩
                intro i hi
                simp only [List.mem_cons, List.mem_append, List.mem_map] at hi
                rcases hi with rfl | ⟨i1, hi1, rfl⟩ | hi
                · exact hstem
                · exact stmtNameOK_flatten hstem i1 (ppc1 i1 hi1)
                · exact ppr1 i hi
termination_by sizeOf cs
end

/-- Claim C2 (amended): in a tree in which no module declares an accepted
public-name list, every name a run emits in *attribute* position (the
Exposer's names) either is the stem of some file or directory of the tree
or does not begin with an underscore, and every name in *module* position
is a stem of the tree.  The claim fails as stated because stems — file
stems such as `_foo` of `_foo.py` and directory names — are emitted
without any underscore filtering; see the counterexample. -/
theorem C2_underscore_rule (node : FSNode) (r s : Bool)
    (k : List String → List String) (st : List Imports) (ws : List WriteEvent)
    (hnp : noPublicList node = true)
    (h : make_init node r s k = some (.ok (st, ws))) :
    (∀ i ∈ st, stmtNameOK (stems node) i) ∧
      (∀ w ∈ ws, ∀ i ∈ w.2.1, stmtNameOK (stems node) i) :=
  make_init_names_ok node r s k st ws hnp h

theorem C2_underscore_rule_witness :
    (∀ i ∈ ([.Import "a", .FromImport "a" "foo", .FromImport "a" "X"] : List Imports),
        stmtNameOK (stems pkgScenario1) i) ∧
      (∀ w ∈ ([([], [.Import "a", .FromImport "a" "foo", .FromImport "a" "X"],
            scenario1TextUnsorted)] : List WriteEvent),
        ∀ i ∈ w.2.1, stmtNameOK (stems pkgScenario1) i) :=
  C2_underscore_rule pkgScenario1 true false (fun l => l) _ _
    (by simp [pkgScenario1, noPublicList, noPublicListChildren, parsedScansNone, scan_all])
    (by simp [pkgScenario1, scenario1TextUnsorted, make_init, aggregate, skipChild,
        fnameOf, stemOf, get_exposed_names, scan_all, collect_names, push_name,
        startsWithUnderscore, isDirNode, flattenStmt, process_init_file, importsOf,
        fromImportsOf, importsOfRaw, fromImportsOfRaw, fmapOf, buildMap, groupInsert,
        keysOf, mapKeysOf, lookupGroup, emitImports, emitAttrs, emitGroups, emitAll])

/-- Claim C2 fails as stated: in the tree `pkg/_foo.py` (containing
`def bar(): pass`, and no public-name list anywhere) the generated
`pkg/__init__.py` emits the underscore-initial stem `_foo` — as a
`from . import _foo` line and as the entry `"_foo"` of `__all__`. -/
theorem C2_counterexample :
    noPublicList pkgUnderscore = true ∧
    startsWithUnderscore "_foo" = true ∧
    make_init pkgUnderscore true false (fun l => l) =
      some (.ok ([.Import "_foo", .FromImport "_foo" "bar"],
        [([], [.Import "_foo", .FromImport "_foo" "bar"], underscoreText)])) := by
  refine ⟨by simp [pkgUnderscore, noPublicList, noPublicListChildren, parsedScansNone,
    scan_all], by decide, ?_⟩
  simp [pkgUnderscore, underscoreText, make_init, aggregate, skipChild, fnameOf, stemOf,
    get_exposed_names, scan_all, collect_names, push_name, startsWithUnderscore,
    isDirNode, flattenStmt]
  decide

/-! ## Tree lemmas: materialized `__init__.py` files are invisible to the
traversal -/

theorem addInit_preserve_shape (c : FSNode) (ds : List String)
    (p : Except String (Option (List Stmt))) :
    fnameOf (addInit c ds p) = fnameOf c ∧
      isDirNode (addInit c ds p) = isDirNode c ∧
      skipChild (addInit c ds p) = skipChild c := by
  cases c with
  | pyFile f q => cases ds <;> simp [addInit]
  | otherFile f => cases ds <;> simp [addInit]
  | dir f cs => cases ds <;> simp [addInit, fnameOf, isDirNode, skipChild]

theorem aggregate_setInit (p : Except String (Option (List Stmt))) :
    ∀ (cs : FSChildren) (r s : Bool) (k : List String → List String),
      aggregate (setInit p cs) r s k = aggregate cs r s k
  | .nil, r, s, k => by
    simp [setInit, aggregate, skipChild, fnameOf]
  | .consErr m rest, r, s, k => by
    simp only [setInit, aggregate]
    exact aggregate_setInit p rest r s k
  | .consOk c rest, r, s, k => by
    by_cases hc : fnameOf c = "__init__.py"
    · have hskipc : skipChild c = true := by
        cases c <;> simp_all [skipChild, fnameOf]
      have hL : aggregate (setInit p (FSChildren.consOk c rest)) r s k =
          aggregate rest r s k := by
        simp only [setInit, if_pos hc]
        simp [aggregate, skipChild, fnameOf]
      have hR : aggregate (FSChildren.consOk c rest) r s k = aggregate rest r s k := by
        simp [aggregate, hskipc]
      rw [hL, hR]
    · simp only [setInit, if_neg hc, aggregate]
      rw [aggregate_setInit p rest r s k]

mutual
theorem make_init_addInit (node : FSNode) (path : List String)
    (p : Except String (Option (List Stmt))) (r s : Bool)
    (k : List String → List String) :
    make_init (addInit node path p) r s k = make_init node r s k := by
  cases node with
  | pyFile f q => cases path <;> simp [addInit]
  | otherFile f => cases path <;> simp [addInit]
  | dir f cs =>
    cases path with
    | nil =>
      simp only [addInit, make_init]
      rw [aggregate_setInit]
    | cons d ds =>
      simp only [addInit, make_init]
      rw [aggregate_addInitChildren cs d ds p r s k]
termination_by sizeOf node

theorem aggregate_addInitChildren (cs : FSChildren) (d : String) (ds : List String)
    (p : Except String (Option (List Stmt))) (r s : Bool)
    (k : List String → List String) :
    aggregate (addInitChildren cs d ds p) r s k = aggregate cs r s k := by
  cases cs with
  | nil => simp [addInitChildren]
  | consErr m rest =>
    simp only [addInitChildren, aggregate]
    exact aggregate_addInitChildren rest d ds p r s k
  | consOk c rest =>
    by_cases hc : fnameOf c = d
    · simp only [addInitChildren, if_pos hc]
      obtain ⟨hf, hdir, hskip⟩ := addInit_preserve_shape c ds p
      simp only [aggregate, hskip, hf, hdir, make_init_addInit c ds p r s k]
    · simp only [addInitChildren, if_neg hc, aggregate]
      rw [aggregate_addInitChildren rest d ds p r s k]
termination_by sizeOf cs
end

theorem make_init_applyWrites (r s : Bool) (k : List String → List String)
    (pf : List String → Except String (Option (List Stmt))) :
    ∀ (ws : List WriteEvent) (node : FSNode),
      make_init (applyWrites node ws pf) r s k = make_init node r s k
  | [], node => by simp [applyWrites]
  | w :: ws, node => by
    simp only [applyWrites, List.foldl_cons]
    have hrec := make_init_applyWrites r s k pf ws (addInit node w.1 (pf w.1))
    simp only [applyWrites] at hrec
    rw [hrec, make_init_addInit]

/-- The sorted Renderer produces the same bytes under any two key
iteration orders that are permutations of each other. -/
theorem process_init_file_ksel_congr (statements : List Imports)
    (k1 k2 : List String → List String)
    (h : (k1 (keysOf statements true)).Perm (k2 (keysOf statements true))) :
    process_init_file statements true k1 = process_init_file statements true k2 := by
  have hk : mapKeysOf statements true k1 = mapKeysOf statements true k2 := by
    unfold mapKeysOf
    simp only [if_true]
    exact sortStrings_congr h
  unfold process_init_file
  rw [hk]

mutual
/-- With sorting on, a whole run is insensitive to the hash maps' key
iteration orders: two pointwise-permuted key oracles give identical
results, writes included. -/
theorem make_init_ksel_congr (node : FSNode) (r : Bool)
    (k1 k2 : List String → List String) (hperm : ∀ l, (k1 l).Perm (k2 l)) :
    make_init node r true k1 = make_init node r true k2 := by
  cases node with
  | pyFile f parsed => cases parsed <;> simp only [make_init]
  | otherFile f => simp only [make_init]
  | dir f children =>
    simp only [make_init]
    rw [aggregate_ksel_congr children r k1 k2 hperm]
    cases hagg : aggregate children r true k2 with
    | none => rfl
    | some res =>
      cases res with
      | error e => rfl
      | ok p =>
        obtain ⟨result, ws0⟩ := p
        by_cases hres : result.isEmpty
        · simp [hres]
        · simp only [hres, Bool.false_eq_true, if_false]
          rw [process_init_file_ksel_congr result k1 k2 (hperm _)]
termination_by sizeOf node

theorem aggregate_ksel_congr (cs : FSChildren) (r : Bool)
    (k1 k2 : List String → List String) (hperm : ∀ l, (k1 l).Perm (k2 l)) :
    aggregate cs r true k1 = aggregate cs r true k2 := by
  cases cs with
  | nil => simp only [aggregate]
  | consErr m rest =>
    simp only [aggregate]
    exact aggregate_ksel_congr rest r k1 k2 hperm
  | consOk c rest =>
    simp only [aggregate]
    rw [make_init_ksel_congr c r k1 k2 hperm, aggregate_ksel_congr rest r k1 k2 hperm]
termination_by sizeOf cs
end

/-- Claim C8 fails as stated: with `sort = false` the second run's hash
map may yield its two keys in the other order, and then the second run —
on the tree as left by the first run — produces different index bytes
(the re-export groups and the tail of `__all__` come out reversed). -/
theorem C8_counterexample :
    make_init pkgTwo true false (fun l => l) =
      some (.ok (pkgTwoStatements, [([], pkgTwoStatements, pkgTwoTextAB)])) ∧
    make_init (applyWrites pkgTwo [([], pkgTwoStatements, pkgTwoTextAB)]
        (fun _ => Except.ok (some []))) true false (fun l => l.reverse) =
      some (.ok (pkgTwoStatements, [([], pkgTwoStatements, pkgTwoTextBA)])) ∧
    ((fun (l : List String) => l.reverse) (keysOf pkgTwoStatements false)).Perm
      (keysOf pkgTwoStatements false) ∧
    pkgTwoTextBA ≠ pkgTwoTextAB := by
  refine ⟨?_, ?_, by decide, by decide⟩
  · simp [pkgTwo, pkgTwoStatements, pkgTwoTextAB, make_init, aggregate, skipChild,
      fnameOf, stemOf, get_exposed_names, scan_all, collect_names, push_name,
      startsWithUnderscore, isDirNode, flattenStmt]
    decide
  · rw [make_init_applyWrites]
    simp [pkgTwo, pkgTwoStatements, pkgTwoTextBA, make_init, aggregate, skipChild,
      fnameOf, stemOf, get_exposed_names, scan_all, collect_names, push_name,
      startsWithUnderscore, isDirNode, flattenStmt]
    decide

/-- Claim C8 (amended): running the generator a second time on the tree as
left by the first run — every written `__init__.py` materialized at its
path, with any parse outcomes `pf` — yields the identical statement list
and byte-identical writes (i) whenever the second run's hash maps iterate
keys in the same orders as the first run's, for either sort flag, and
(ii) with `sort = true` even when the second run's key iteration orders
differ by arbitrary permutations.  With `sort = false` and a differing key
order the bytes can change (see the counterexample).  Both parts rest on
entries named `__init__.py` being skipped during child enumeration, so the
generator's own outputs never feed back into the statement lists. -/
theorem C8_idempotent :
    (∀ (node : FSNode) (r s : Bool) (k : List String → List String)
        (pf : List String → Except String (Option (List Stmt)))
        (st : List Imports) (ws : List WriteEvent),
        make_init node r s k = some (.ok (st, ws)) →
        make_init (applyWrites node ws pf) r s k = some (.ok (st, ws))) ∧
    (∀ (node : FSNode) (r : Bool) (k1 k2 : List String → List String)
        (pf : List String → Except String (Option (List Stmt)))
        (st : List Imports) (ws : List WriteEvent),
        (∀ l, (k1 l).Perm (k2 l)) →
        make_init node r true k1 = some (.ok (st, ws)) →
        make_init (applyWrites node ws pf) r true k2 = some (.ok (st, ws))) := by
  constructor
  · intro node r s k pf st ws h
    rw [make_init_applyWrites]
    exact h
  · intro node r k1 k2 pf st ws hperm h
    rw [make_init_applyWrites, ← make_init_ksel_congr node r k1 k2 hperm]
    exact h

theorem C8_idempotent_witness :
    make_init (applyWrites pkgScenario1
        [([], scenario1Statements, scenario1TextSorted)]
        (fun _ => Except.ok (some []))) true true (fun l => l.reverse) =
      some (.ok (scenario1Statements,
        [([], scenario1Statements, scenario1TextSorted)])) :=
  C8_idempotent.2 pkgScenario1 true (fun l => l) (fun l => l.reverse)
    (fun _ => Except.ok (some [])) _ _
    (fun l => (List.reverse_perm l).symm)
    (by simp [pkgScenario1, scenario1Statements, scenario1TextSorted, make_init,
      aggregate, skipChild, fnameOf, stemOf, get_exposed_names, scan_all, collect_names,
      push_name, startsWithUnderscore, isDirNode, flattenStmt]
        decide)

/-! ## Tree lemmas: failure propagation with explicit write outcomes -/

mutual
theorem make_init_werr_fails (node : FSNode) (r s : Bool)
    (k : List String → List String) (wf : List String → Option String)
    (res : Except String (List Imports × List WriteEvent))
    (h : make_init_werr node r s k wf = some res)
    (hf : hasFailure node = true) : isErr res = true := by
  cases node with
  | pyFile f parsed =>
    cases parsed with
    | error e =>
      simp only [make_init_werr, Option.some.injEq] at h
      subst h
      rfl
    | ok m => simp [hasFailure] at hf
  | otherFile f =>
    simp only [make_init_werr, Option.some.injEq] at h
    subst h
    rfl
  | dir f children =>
    have hfc : anyChildFailure children = true := by simpa [hasFailure] using hf
    simp only [make_init_werr] at h
    cases hagg : aggregate_werr children r s k wf with
    | none => rw [hagg] at h; simp at h
    | some resa =>
      have hisErr := aggregate_werr_fails children r s k wf resa hagg hfc
      rw [hagg] at h
      cases resa with
      | error e =>
        simp only [Option.some.injEq] at h
        subst h
        rfl
      | ok p => simp [isErr] at hisErr
termination_by sizeOf node

theorem aggregate_werr_fails (cs : FSChildren) (r s : Bool)
    (k : List String → List String) (wf : List String → Option String)
    (res : Except String (List Imports × List WriteEvent))
    (h : aggregate_werr cs r s k wf = some res)
    (hf : anyChildFailure cs = true) : isErr res = true := by
  cases cs with
  | nil => simp [anyChildFailure] at hf
  | consErr m rest =>
    simp only [aggregate_werr] at h
    have hfr : anyChildFailure rest = true := by simpa [anyChildFailure] using hf
    exact aggregate_werr_fails rest r s k wf res h hfr
  | consOk c rest =>
    simp only [aggregate_werr] at h
    by_cases hskip : skipChild c
    · rw [if_pos hskip] at h
      have hfr : anyChildFailure rest = true := by
        simpa [anyChildFailure, hskip] using hf
      exact aggregate_werr_fails rest r s k wf res h hfr
    · rw [if_neg hskip] at h
      cases hmi : make_init_werr c r s k (fun p => wf (fnameOf c :: p)) with
      | none => rw [hmi] at h; simp at h
      | some resc =>
        rw [hmi] at h
        cases resc with
        | error e =>
          simp only [Option.some.injEq] at h
          subst h
          rfl
        | ok pc =>
          by_cases hfcc : hasFailure c = true
          · have := make_init_werr_fails c r s k _ _ hmi hfcc
            simp [isErr] at this
          · have hfr : anyChildFailure rest = true := by
              simpa [anyChildFailure, hskip, hfcc] using hf
            obtain ⟨subInit, ws1⟩ := pc
            cases hagg : aggregate_werr rest r s k wf with
            | none => rw [hagg] at h; simp at h
            | some resr =>
              have hre := aggregate_werr_fails rest r s k wf resr hagg hfr
              rw [hagg] at h
              cases resr with
              | error e =>
                simp only [Option.some.injEq] at h
                subst h
                rfl
              | ok pr => simp [isErr] at hre
termination_by sizeOf cs
end

mutual
theorem make_init_werr_ok (node : FSNode) (r s : Bool)
    (k : List String → List String) (wf : List String → Option String)
    (st : List Imports) (ws : List WriteEvent)
    (h : make_init node r s k = some (.ok (st, ws)))
    (hw : ∀ w ∈ ws, wf w.1 = none) :
    make_init_werr node r s k wf = some (.ok (st, ws)) := by
  cases node with
  | pyFile f parsed =>
    cases parsed with
    | error e => simp [make_init] at h
    | ok m =>
      simp only [make_init] at h
      simp only [make_init_werr]
      cases hg : get_exposed_names m r with
      | none => rw [hg] at h; simp at h
      | some names =>
        rw [hg] at h
        exact h
  | otherFile f =>
    simp only [make_init] at h
    simp only [make_init_werr]
    exact h
  | dir f children =>
    simp only [make_init] at h
    simp only [make_init_werr]
    cases hagg : aggregate children r s k with
    | none => rw [hagg] at h; simp at h
    | some resa =>
      rw [hagg] at h
      cases resa with
      | error e => simp at h
      | ok p =>
        obtain ⟨result, ws0⟩ := p
        by_cases hres : result.isEmpty
        · simp [hres] at h
          obtain ⟨h1, h2⟩ := h
          subst h1; subst h2
          have hagg2 : aggregate_werr children r s k wf = some (.ok (result, ws0)) :=
            aggregate_werr_ok children r s k wf result ws0 hagg hw
          rw [hagg2]
          simp [hres]
        · simp [hres] at h
          obtain ⟨h1, h2⟩ := h
          subst h1; subst h2
          have hw0 : ∀ w ∈ ws0, wf w.1 = none := fun w hm => hw w (by simp [hm])
          have hown : wf [] = none :=
            hw ([], result, process_init_file result s k) (by simp)
          have hagg2 : aggregate_werr children r s k wf = some (.ok (result, ws0)) :=
            aggregate_werr_ok children r s k wf result ws0 hagg hw0
          rw [hagg2]
          simp [hres, hown]
termination_by sizeOf node

theorem aggregate_werr_ok (cs : FSChildren) (r s : Bool)
    (k : List String → List String) (wf : List String → Option String)
    (st : List Imports) (ws : List WriteEvent)
    (h : aggregate cs r s k = some (.ok (st, ws)))
    (hw : ∀ w ∈ ws, wf w.1 = none) :
    aggregate_werr cs r s k wf = some (.ok (st, ws)) := by
  cases cs with
  | nil =>
    simp only [aggregate, Option.some.injEq, Except.ok.injEq, Prod.mk.injEq] at h
    obtain ⟨h1, h2⟩ := h
    subst h1; subst h2
    simp [aggregate_werr]
  | consErr m rest =>
    simp only [aggregate] at h
    simp only [aggregate_werr]
    exact aggregate_werr_ok rest r s k wf st ws h hw
  | consOk c rest =>
    simp only [aggregate] at h
    simp only [aggregate_werr]
    by_cases hskip : skipChild c
    · rw [if_pos hskip] at h ⊢
      exact aggregate_werr_ok rest r s k wf st ws h hw
    · rw [if_neg hskip] at h ⊢
      cases hmi : make_init c r s k with
      | none => rw [hmi] at h; simp at h
      | some resc =>
        rw [hmi] at h
        cases resc with
        | error e => simp at h
        | ok pc =>
          obtain ⟨subInit, ws1⟩ := pc
          cases hagg : aggregate rest r s k with
          | none => rw [hagg] at h; simp at h
          | some resr =>
            rw [hagg] at h
            cases resr with
            | error e => simp at h
            | ok pr =>
              obtain ⟨str, wsr⟩ := pr
              by_cases hde : isDirNode c && subInit.isEmpty
              · simp [hde] at h
                obtain ⟨h1, h2⟩ := h
                subst h1; subst h2
                have hw1 : ∀ w ∈ ws1, wf (fnameOf c :: w.1) = none := by
                  intro w hm
                  refine hw (fnameOf c :: w.1, w.2) ?_
                  simp only [List.mem_append, List.mem_map]
                  exact Or.inl ⟨w, hm, rfl⟩
                have hwr : ∀ w ∈ wsr, wf w.1 = none := fun w hm => hw w (by simp [hm])
                have hmi2 : make_init_werr c r s k (fun p => wf (fnameOf c :: p)) =
                    some (.ok (subInit, ws1)) :=
                  make_init_werr_ok c r s k _ subInit ws1 hmi hw1
                have hagg2 : aggregate_werr rest r s k wf = some (.ok (str, wsr)) :=
                  aggregate_werr_ok rest r s k wf str wsr hagg hwr
                rw [hmi2, hagg2]
                simp [hde]
              · simp [hde] at h
                obtain ⟨h1, h2⟩ := h
                subst h1; subst h2
                have hw1 : ∀ w ∈ ws1, wf (fnameOf c :: w.1) = none := by
                  intro w hm
                  refine hw (fnameOf c :: w.1, w.2) ?_
                  simp only [List.mem_append, List.mem_map]
                  exact Or.inl ⟨w, hm, rfl⟩
                have hwr : ∀ w ∈ wsr, wf w.1 = none := fun w hm => hw w (by simp [hm])
                have hmi2 : make_init_werr c r s k (fun p => wf (fnameOf c :: p)) =
                    some (.ok (subInit, ws1)) :=
                  make_init_werr_ok c r s k _ subInit ws1 hmi hw1
                have hagg2 : aggregate_werr rest r s k wf = some (.ok (str, wsr)) :=
                  aggregate_werr_ok rest r s k wf str wsr hagg hwr
                rw [hmi2, hagg2]
                simp [hde]
termination_by sizeOf cs
end

mutual
theorem make_init_werr_werror (node : FSNode) (r s : Bool)
    (k : List String → List String) (wf : List String → Option String)
    (st : List Imports) (ws : List WriteEvent)
    (h : make_init node r s k = some (.ok (st, ws)))
    (hw : ∃ w ∈ ws, (wf w.1).isSome = true) :
    ∃ e, make_init_werr node r s k wf = some (.error e) := by
  cases node with
  | pyFile f parsed =>
    cases parsed with
    | error e => simp [make_init] at h
    | ok m =>
      simp only [make_init] at h
      cases hg : get_exposed_names m r with
      | none => rw [hg] at h; simp at h
      | some names =>
        rw [hg] at h
        simp only [Option.some.injEq, Except.ok.injEq, Prod.mk.injEq] at h
        obtain ⟨h1, h2⟩ := h
        subst h2
        simp at hw
  | otherFile f => simp [make_init] at h
  | dir f children =>
    simp only [make_init] at h
    cases hagg : aggregate children r s k with
    | none => rw [hagg] at h; simp at h
    | some resa =>
      rw [hagg] at h
      cases resa with
      | error e => simp at h
      | ok p =>
        obtain ⟨result, ws0⟩ := p
        simp only [make_init_werr]
        by_cases hres : result.isEmpty
        · simp [hres] at h
          obtain ⟨h1, h2⟩ := h
          subst h1; subst h2
          obtain ⟨e, hagg2⟩ :=
            aggregate_werr_werror children r s k wf result ws0 hagg hw
          rw [hagg2]
          exact ⟨e, rfl⟩
        · simp [hres] at h
          obtain ⟨h1, h2⟩ := h
          subst h1; subst h2
          by_cases hfail0 : ∃ w ∈ ws0, (wf w.1).isSome = true
          · obtain ⟨e, hagg2⟩ :=
              aggregate_werr_werror children r s k wf result ws0 hagg hfail0
            rw [hagg2]
            exact ⟨e, rfl⟩
          · have hw0 : ∀ w ∈ ws0, wf w.1 = none := by
              intro w hm
              cases hwv : wf w.1 with
              | none => rfl
              | some e => exact absurd ⟨w, hm, by simp [hwv]⟩ hfail0
            have hagg2 : aggregate_werr children r s k wf = some (.ok (result, ws0)) :=
              aggregate_werr_ok children r s k wf result ws0 hagg hw0
            rw [hagg2]
            obtain ⟨w, hmem, hfailw⟩ := hw
            simp only [List.mem_append, List.mem_singleton] at hmem
            rcases hmem with hmem | hmem
            · exact absurd ⟨w, hmem, hfailw⟩ hfail0
            · subst hmem
              cases hwv : wf [] with
              | none => rw [hwv] at hfailw; simp at hfailw
              | some e =>
                refine ⟨e, ?_⟩
                simp [hres, hwv]
termination_by sizeOf node

theorem aggregate_werr_werror (cs : FSChildren) (r s : Bool)
    (k : List String → List String) (wf : List String → Option String)
    (st : List Imports) (ws : List WriteEvent)
    (h : aggregate cs r s k = some (.ok (st, ws)))
    (hw : ∃ w ∈ ws, (wf w.1).isSome = true) :
    ∃ e, aggregate_werr cs r s k wf = some (.error e) := by
  cases cs with
  | nil =>
    simp only [aggregate, Option.some.injEq, Except.ok.injEq, Prod.mk.injEq] at h
    obtain ⟨h1, h2⟩ := h
    subst h2
    simp at hw
  | consErr m rest =>
    simp only [aggregate] at h
    simp only [aggregate_werr]
    exact aggregate_werr_werror rest r s k wf st ws h hw
  | consOk c rest =>
    simp only [aggregate] at h
    simp only [aggregate_werr]
    by_cases hskip : skipChild c
    · rw [if_pos hskip] at h ⊢
      exact aggregate_werr_werror rest r s k wf st ws h hw
    · rw [if_neg hskip] at h ⊢
      cases hmi : make_init c r s k with
      | none => rw [hmi] at h; simp at h
      | some resc =>
        rw [hmi] at h
        cases resc with
        | error e => simp at h
        | ok pc =>
          obtain ⟨subInit, ws1⟩ := pc
          cases hagg : aggregate rest r s k with
          | none => rw [hagg] at h; simp at h
          | some resr =>
            rw [hagg] at h
            cases resr with
            | error e => simp at h
            | ok pr =>
              obtain ⟨str, wsr⟩ := pr
              have hsplit : ws = (ws1.map fun w => (fnameOf c :: w.1, w.2)) ++ wsr := by
                by_cases hde : isDirNode c && subInit.isEmpty
                · simp [hde] at h
                  exact h.2.symm
                · simp [hde] at h
                  exact h.2.symm
              by_cases hfail1 : ∃ w ∈ ws1, (wf (fnameOf c :: w.1)).isSome = true
              · obtain ⟨e, hmi2⟩ :=
                  make_init_werr_werror c r s k (fun p => wf (fnameOf c :: p))
                    subInit ws1 hmi hfail1
                rw [hmi2]
                exact ⟨e, rfl⟩
              · have hw1 : ∀ w ∈ ws1, wf (fnameOf c :: w.1) = none := by
                  intro w hm
                  cases hwv : wf (fnameOf c :: w.1) with
                  | none => rfl
                  | some e => exact absurd ⟨w, hm, by simp [hwv]⟩ hfail1
                have hmi2 : make_init_werr c r s k (fun p => wf (fnameOf c :: p)) =
                    some (.ok (subInit, ws1)) :=
                  make_init_werr_ok c r s k _ subInit ws1 hmi hw1
                rw [hmi2]
                have hwr : ∃ w ∈ wsr, (wf w.1).isSome = true := by
                  obtain ⟨w, hmem, hfailw⟩ := hw
                  rw [hsplit] at hmem
                  simp only [List.mem_append, List.mem_map] at hmem
                  rcases hmem with ⟨w1, hw1m, rfl⟩ | hmem
                  · exact absurd ⟨w1, hw1m, hfailw⟩ hfail1
                  · exact ⟨w, hmem, hfailw⟩
                obtain ⟨e, hagg2⟩ :=
                  aggregate_werr_werror rest r s k wf str wsr hagg hwr
                rw [hagg2]
                exact ⟨e, rfl⟩
termination_by sizeOf cs
end

/-- Claim C9 (amended): (i) every Exposer failure — a parse or source-read
error of a reached source file — aborts the entire run and is returned as
an error, whatever the write outcomes; (ii) when the traversal succeeds
and every performed index write succeeds, the full statement list and
write events are returned; (iii) any I/O failure on a performed index
write aborts the run with an error, so no statement list is returned.
However, a directory entry whose enumeration fails with an I/O error is
silently skipped by `.filter_map(|e| e.ok())` rather than aborting; see
the counterexample. -/
theorem C9_failure_propagation :
    (∀ (node : FSNode) (r s : Bool) (k : List String → List String)
        (wf : List String → Option String)
        (res : Except String (List Imports × List WriteEvent)),
        make_init_werr node r s k wf = some res → hasFailure node = true →
        isErr res = true) ∧
    (∀ (node : FSNode) (r s : Bool) (k : List String → List String)
        (wf : List String → Option String)
        (st : List Imports) (ws : List WriteEvent),
        make_init node r s k = some (.ok (st, ws)) →
        (∀ w ∈ ws, wf w.1 = none) →
        make_init_werr node r s k wf = some (.ok (st, ws))) ∧
    (∀ (node : FSNode) (r s : Bool) (k : List String → List String)
        (wf : List String → Option String)
        (st : List Imports) (ws : List WriteEvent),
        make_init node r s k = some (.ok (st, ws)) →
        (∃ w ∈ ws, (wf w.1).isSome = true) →
        ∃ e, make_init_werr node r s k wf = some (.error e)) :=
  ⟨make_init_werr_fails, make_init_werr_ok, make_init_werr_werror⟩

theorem C9_failure_propagation_witness :
    ∃ e, make_init_werr pkgScenario1 true false (fun l => l)
        (fun p => if p = [] then some "disk full" else none) =
      some (.error e) :=
  C9_failure_propagation.2.2 pkgScenario1 true false (fun l => l)
    (fun p => if p = [] then some "disk full" else none)
    scenario1Statements [([], scenario1Statements, scenario1TextUnsorted)]
    (by simp [pkgScenario1, scenario1Statements, scenario1TextUnsorted, make_init,
      aggregate, skipChild, fnameOf, stemOf, get_exposed_names, scan_all, collect_names,
      push_name, startsWithUnderscore, isDirNode, flattenStmt]
        decide)
    ⟨([], scenario1Statements, scenario1TextUnsorted), by simp, by decide⟩
